import Mathlib

/-!
Verification development for the RAG document-platform backend.

Shallow embedding of the core algorithmic components:
  * the multi-strategy text chunker        (src/utils/chunk.py)
  * the FAISS-backed vector store          (src/utils/faiss.py)
  * the document-processing orchestrator   (src/api/services/document_service.py)
  * the graph-style entity/relation search (src/api/services/document_service.py)

Python strings are modelled as lists of characters (`PyStr`), Python dicts that
are used in insertion order as association lists, floating-point scores as
rationals, and Python ints as `Nat` where the code keeps them non-negative.
-/

namespace Rag

/-- Python strings as lists of unicode code points. -/
abbrev PyStr := List Char

/-- Python slice `t[a:b]` for `0 ≤ a ≤ b` (both clamped to the length). -/
def pySlice (t : PyStr) (a b : Nat) : PyStr := (t.drop a).take (b - a)

/-- Python `s.lower()` (per-character lowering). -/
def pyLower (s : PyStr) : PyStr := s.map Char.toLower

/-- Python `sub in hay` for strings: substring containment. -/
def pyContains (hay sub : PyStr) : Bool := decide (List.IsInfix sub hay)

/-- Python `s.strip()`: drop whitespace from both ends. -/
def pyStrip (s : PyStr) : PyStr :=
  ((s.dropWhile Char.isWhitespace).reverse.dropWhile Char.isWhitespace).reverse

/-- Python `s.split()` (no argument): split on whitespace runs, dropping empties. -/
def pyWhitespaceSplit (s : PyStr) : List PyStr :=
  (s.splitOnP Char.isWhitespace).filter (fun w => ¬ w.isEmpty)

/-- `String` version of Python `s.lower()`. -/
def strLower (s : String) : String := String.mk (s.data.map Char.toLower)

/-- `String` version of Python `sub in hay`. -/
def strContains (hay sub : String) : Bool := decide (List.IsInfix sub.data hay.data)

/-! ## Chunker (src/utils/chunk.py)

`TextChunker.__init__` raises `ValueError` (the spec's `ConfigurationError`)
when `chunk_overlap >= chunk_size`; we model construction as
`mkTextChunker : Nat → Nat → Except String TextChunker`.
The `length_function` parameter is always the default `len` in this
repository, so it is modelled as `List.length`. -/

structure TextChunker where
  chunk_size : Nat
  chunk_overlap : Nat
  keep_sep : Bool
deriving Repr, DecidableEq

/-- `TextChunker.__init__` (src/utils/chunk.py lines 33-55): rejects
`chunk_overlap >= chunk_size` with a `ValueError` (spec: `ConfigurationError`). -/
def mkTextChunker (chunk_size chunk_overlap : Nat) : Except String TextChunker :=
  if chunk_size ≤ chunk_overlap then .error "chunk_overlap 必须小于 chunk_size"
  else .ok ⟨chunk_size, chunk_overlap, true⟩

/-- Metadata record attached to a chunk (`ChunkMetadata` dataclass). -/
structure ChunkMetadata where
  chunk_id : Nat
  start_pos : Nat
  end_pos : Nat
  chunk_size : Nat
  strategy : String
deriving Repr, DecidableEq

/-- The `while start < len(text)` loop of `TextChunker.fixed_size_chunking`
(src/utils/chunk.py lines 72-101), fuelled; `none` means the fuel ran out.
Each iteration emits the window `text[start:end]` with `end =
min(start + chunk_size, len)`, then sets `start := end - chunk_overlap` and
breaks once `start >= len - chunk_overlap`. -/
def fixedSizeAux (c : TextChunker) (t : PyStr) :
    Nat → Nat → Nat → Option (List (PyStr × ChunkMetadata))
  | 0, _, _ => none
  | fuel+1, start, cid =>
    if start < t.length then
      let e := min (start + c.chunk_size) t.length
      let chunkText := pySlice t start e
      let item := (chunkText, ⟨cid, start, e, chunkText.length, "fixed_size"⟩)
      let start2 := e - c.chunk_overlap
      if t.length - c.chunk_overlap ≤ start2 then some [item]
      else
        match fixedSizeAux c t fuel start2 (cid + 1) with
        | none => none
        | some rest => some (item :: rest)
    else some []

/-- `TextChunker.fixed_size_chunking(text, with_metadata=True)`. The fuel
`t.length + 1` is sufficient whenever `chunk_overlap < chunk_size`
(theorem `fixedSizeAux_isSome`). -/
def TextChunker.fixedSizeChunkingMeta (c : TextChunker) (t : PyStr) :
    List (PyStr × ChunkMetadata) :=
  (fixedSizeAux c t (t.length + 1) 0 0).getD []

/-- `TextChunker.fixed_size_chunking(text)` (no metadata). -/
def TextChunker.fixedSizeChunking (c : TextChunker) (t : PyStr) : List PyStr :=
  (c.fixedSizeChunkingMeta t).map Prod.fst

/-- The `for i in range(0, len(text), chunk_size - chunk_overlap)` loop of
`TextChunker._force_split` (src/utils/chunk.py lines 213-218), fuelled. -/
def forceSplitAux (c : TextChunker) (t : PyStr) : Nat → Nat → Option (List PyStr)
  | 0, _ => none
  | fuel+1, i =>
    if i < t.length then
      match forceSplitAux c t fuel (i + (c.chunk_size - c.chunk_overlap)) with
      | none => none
      | some rest => some (pySlice t i (i + c.chunk_size) :: rest)
    else some []

/-- `TextChunker._force_split(text)`. -/
def TextChunker.forceSplit (c : TextChunker) (t : PyStr) : List PyStr :=
  (forceSplitAux c t (t.length + 1) 0).getD []

/-- Python `text.split(sep)` for a nonempty `sep`, fuelled scan
(`acc` holds the current piece reversed). -/
def pySplitAux (sep : PyStr) : Nat → PyStr → PyStr → List PyStr
  | 0, acc, t => [acc.reverse ++ t]
  | fuel+1, acc, t =>
    match t with
    | [] => [acc.reverse]
    | ch :: rest =>
      if sep.isPrefixOf (ch :: rest) ∧ ¬ sep.isEmpty then
        acc.reverse :: pySplitAux sep fuel [] ((ch :: rest).drop sep.length)
      else pySplitAux sep fuel (ch :: acc) rest

/-- Python `text.split(sep)` (nonempty separator). -/
def pySplit (sep t : PyStr) : List PyStr := pySplitAux sep (t.length + 1) [] t

/-- The keep-separator adjustment of `_recursive_split`:
`[s + separator if i < len(splits) - 1 else s for i, s in enumerate(splits)]`. -/
def appendSepButLast (sep : PyStr) : List PyStr → List PyStr
  | [] => []
  | [x] => [x]
  | x :: xs => (x ++ sep) :: appendSepButLast sep xs

/-- `TextChunker._add_overlap` inner loop: each chunk after the first is
prefixed with the trailing `chunk_overlap` characters of the previous chunk. -/
def addOverlapAux (ov : Nat) : PyStr → List PyStr → List PyStr
  | _, [] => []
  | prev, ch :: rest =>
    let ovText := if ov < prev.length then prev.drop (prev.length - ov) else prev
    (ovText ++ ch) :: addOverlapAux ov ch rest

/-- `TextChunker._add_overlap(chunks)` (src/utils/chunk.py lines 220-235). -/
def TextChunker.addOverlap (c : TextChunker) (chunks : List PyStr) : List PyStr :=
  match chunks with
  | [] => []
  | first :: rest =>
    if rest.isEmpty ∨ c.chunk_overlap = 0 then first :: rest
    else first :: addOverlapAux c.chunk_overlap first rest

/-- The packing loop of `_recursive_split` (src/utils/chunk.py lines 172-205):
each split is paired with the pre-computed recursive result used when the
split alone exceeds `chunk_size`. State: emitted chunks, current group,
current group size. -/
def packSplits (c : TextChunker) (sep : PyStr) :
    List (PyStr × List PyStr) → List PyStr → List PyStr → Nat → List PyStr
  | [], chunks, current, _ =>
    if current.isEmpty then chunks else chunks ++ [List.intercalate sep current]
  | (s, sub) :: ss, chunks, current, curSize =>
    if c.chunk_size < s.length then
      let chunks' := if current.isEmpty then chunks
                     else chunks ++ [List.intercalate sep current]
      packSplits c sep ss (chunks' ++ sub) [] 0
    else if c.chunk_size < curSize + s.length ∧ ¬ current.isEmpty then
      packSplits c sep ss (chunks ++ [List.intercalate sep current]) [s] s.length
    else packSplits c sep ss chunks (current ++ [s]) (curSize + s.length)

/-- `TextChunker._recursive_split(text, separators)`
(src/utils/chunk.py lines 147-211). -/
def recursiveSplit (c : TextChunker) : List PyStr → PyStr → List PyStr
  | [], t => c.forceSplit t
  | sep :: rest, t =>
    if t.length ≤ c.chunk_size then (if t.isEmpty then [] else [t])
    else if sep.isEmpty then c.forceSplit t
    else
      let splits0 := pySplit sep t
      let splits := if c.keep_sep then appendSepButLast sep splits0 else splits0
      let tagged := splits.map (fun s => (s, recursiveSplit c rest s))
      let chunks := packSplits c sep tagged [] [] 0
      if 0 < c.chunk_overlap then c.addOverlap chunks else chunks

/-- The default separator list of `recursive_chunking`. -/
def defaultSeparators : List PyStr :=
  [['\n', '\n'], ['\n'], ['。'], ['！'], ['？'], ['；'], ['，'], [' '], []]

/-- `TextChunker.recursive_chunking(text)` (src/utils/chunk.py lines 103-145). -/
def TextChunker.recursiveChunking (c : TextChunker) (t : PyStr) : List PyStr :=
  recursiveSplit c defaultSeparators t

/-- Chinese sentence terminators of the semantic-chunking regex. -/
def isZhTerm (ch : Char) : Bool :=
  ch = '。' ∨ ch = '！' ∨ ch = '？' ∨ ch = '；' ∨ ch = '…'

/-- Western sentence terminators of the semantic-chunking regex. -/
def isEnTerm (ch : Char) : Bool := ch = '.' ∨ ch = '!' ∨ ch = '?'

/-- `re.findall(r'[^T]+[T]?', text)`: maximal runs of non-terminators each
followed by an optional terminator; terminators with no preceding run are
skipped. `acc` is the current run, reversed. -/
def sentencesAux (term : Char → Bool) : PyStr → PyStr → List PyStr
  | [], acc => if acc.isEmpty then [] else [acc.reverse]
  | ch :: rest, acc =>
    if term ch then
      if acc.isEmpty then sentencesAux term rest []
      else (acc.reverse ++ [ch]) :: sentencesAux term rest []
    else sentencesAux term rest (ch :: acc)

/-- The reversed scan that seeds the next chunk with trailing prior
sentences fitting within `chunk_overlap` characters
(src/utils/chunk.py lines 282-287). -/
def overlapPickAux (ovSize : Nat) : List PyStr → PyStr → PyStr
  | [], acc => acc
  | p :: ps, acc =>
    if acc.length + p.length ≤ ovSize then overlapPickAux ovSize ps (p ++ acc)
    else acc

/-- `overlap_text` accumulation over `reversed(current_sentences)`. -/
def overlapPick (ovSize : Nat) (sents : List PyStr) : PyStr :=
  overlapPickAux ovSize sents.reverse []

/-- The sentence-accumulation loop of `TextChunker.semantic_chunking`
(src/utils/chunk.py lines 268-300). State: remaining sentences,
`current_chunk`, `current_sentences`, emitted chunks. -/
def semanticAux (c : TextChunker) :
    List PyStr → PyStr → List PyStr → List PyStr → List PyStr
  | [], currentChunk, _, chunks =>
    if (pyStrip currentChunk).isEmpty then chunks
    else chunks ++ [pyStrip currentChunk]
  | sent :: rest, currentChunk, currentSentences, chunks =>
    let sentence := pyStrip sent
    if sentence.isEmpty then semanticAux c rest currentChunk currentSentences chunks
    else
      let test := currentChunk ++ sentence
      if c.chunk_size < test.length ∧ ¬ currentChunk.isEmpty then
        let chunks' := chunks ++ [pyStrip currentChunk]
        if 0 < c.chunk_overlap ∧ ¬ currentSentences.isEmpty then
          let ovText := overlapPick c.chunk_overlap currentSentences
          semanticAux c rest (ovText ++ sentence)
            (if ovText.isEmpty then [sentence] else [ovText, sentence]) chunks'
        else semanticAux c rest sentence [sentence] chunks'
      else semanticAux c rest test (currentSentences ++ [sentence]) chunks

/-- Language selector for `semantic_chunking`. -/
inductive ChunkLanguage | zh | en
deriving Repr, DecidableEq

/-- `TextChunker.semantic_chunking(text, language)`
(src/utils/chunk.py lines 237-321). -/
def TextChunker.semanticChunking (c : TextChunker) (t : PyStr)
    (language : ChunkLanguage) : List PyStr :=
  let term := match language with
    | .zh => isZhTerm
    | .en => isEnTerm
  semanticAux c (sentencesAux term t []) [] [] []

/-- Greedy-with-backtrack match of the tail of `re.split(r'\n\s*\n', text)`
after an initial newline: consume whitespace up to (and including) the last
newline of the maximal whitespace run, or fail when no such newline exists. -/
def matchBlankTail (rest : PyStr) : Option PyStr :=
  let w := rest.takeWhile Char.isWhitespace
  match (w.reverse.findIdx? (fun ch => ch = '\n')) with
  | none => none
  | some j => some (rest.drop (w.length - j))

/-- The scan implementing `re.split(r'\n\s*\n', text)`, fuelled. -/
def blankSplitAux : Nat → PyStr → PyStr → List PyStr
  | 0, acc, t => [acc.reverse ++ t]
  | _+1, acc, [] => [acc.reverse]
  | fuel+1, acc, ch :: rest =>
    if ch = '\n' then
      match matchBlankTail rest with
      | some rest2 => acc.reverse :: blankSplitAux fuel [] rest2
      | none => blankSplitAux fuel (ch :: acc) rest
    else blankSplitAux fuel (ch :: acc) rest

/-- `re.split(r'\n\s*\n', text)`: split on blank-line boundaries. -/
def blankLineSplit (t : PyStr) : List PyStr := blankSplitAux (t.length + 1) [] t

/-- The paragraph-packing loop of `TextChunker.paragraph_chunking`
(src/utils/chunk.py lines 386-470). State: remaining paragraphs,
`current_chunk`, emitted chunks. -/
def paragraphAux (c : TextChunker) : List PyStr → PyStr → List PyStr → List PyStr
  | [], current, chunks =>
    if current.isEmpty then chunks else chunks ++ [current]
  | p :: ps, current, chunks =>
    let para := pyStrip p
    if para.isEmpty then paragraphAux c ps current chunks
    else if c.chunk_size < para.length then
      let chunks' := if current.isEmpty then chunks else chunks ++ [current]
      paragraphAux c ps [] (chunks' ++ c.recursiveChunking para)
    else if c.chunk_size < (current ++ ['\n', '\n'] ++ para).length ∧
        ¬ current.isEmpty then
      paragraphAux c ps para (chunks ++ [current])
    else
      paragraphAux c ps (if current.isEmpty then para
                         else current ++ ['\n', '\n'] ++ para) chunks

/-- `TextChunker.paragraph_chunking(text)` (src/utils/chunk.py lines 365-470). -/
def TextChunker.paragraphChunking (c : TextChunker) (t : PyStr) : List PyStr :=
  paragraphAux c (blankLineSplit t) [] []

/-! ## FAISS vector store (src/utils/faiss.py)

The nearest-neighbor structure and the embedding network call are external;
the store's own state is the metadata maps. `documents` and `doc_id_to_idx`
are Python dicts used in insertion order and are modelled as association
lists; `current_idx` is the next slot number. The slots held by the
underlying FAISS index always range over `0, …, ntotal - 1`; a search
resolves whatever slot list the structure returns (including the `-1`
sentinel) through `documents`, so searches are modelled as the resolution
loop applied to an arbitrary hit list. -/

/-- `DocumentMetadata` dataclass (metadata map abstracted). -/
structure DocumentMetadata where
  doc_id : String
  text : PyStr
  meta : List (String × String)
deriving Repr, DecidableEq

/-- Association-list lookup (Python `dict.get`). -/
def alistGet {α : Type} [DecidableEq α] {β : Type} (m : List (α × β)) (k : α) :
    Option β :=
  match m.find? (fun p => p.1 = k) with
  | some p => some p.2
  | none => none

/-- Association-list update: overwrite in place, or append (Python
`d[k] = v` keeps the key's first-insertion position). -/
def alistSet {α : Type} [DecidableEq α] {β : Type} (m : List (α × β)) (k : α)
    (v : β) : List (α × β) :=
  if (m.find? (fun p => p.1 = k)).isSome
  then m.map (fun p => if p.1 = k then (k, v) else p)
  else m ++ [(k, v)]

/-- Association-list deletion (Python `del d[k]`). -/
def alistDel {α : Type} [DecidableEq α] {β : Type} (m : List (α × β)) (k : α) :
    List (α × β) :=
  m.filter (fun p => ¬ p.1 = k)

/-- The mutable state of `FaissVectorStore`. `ntotal` stands for the number
of vectors held by the wrapped FAISS index. -/
structure FaissVectorStore where
  documents : List (Nat × DocumentMetadata)
  doc_id_to_idx : List (String × Nat)
  current_idx : Nat
  ntotal : Nat
deriving Repr, DecidableEq

/-- A freshly constructed store (`__init__`, lines 118-150). -/
def FaissVectorStore.empty : FaissVectorStore := ⟨[], [], 0, 0⟩

/-- The metadata-recording loop of `add_texts` (src/utils/faiss.py lines
255-265): row `i` is assigned slot `start_idx + i`, stored in `documents`,
mapped in `doc_id_to_idx`, and `current_idx` is incremented. -/
def addRowsAux (startIdx : Nat) :
    FaissVectorStore → List String → Nat →
    List (PyStr × (List (String × String) × String)) →
    FaissVectorStore × List String
  | s, added, _, [] => (s, added)
  | s, added, i, (text, meta, docId) :: rows =>
    addRowsAux startIdx
      { s with
          documents := alistSet s.documents (startIdx + i) ⟨docId, text, meta⟩
          doc_id_to_idx := alistSet s.doc_id_to_idx docId (startIdx + i)
          current_idx := s.current_idx + 1 }
      (added ++ [docId]) (i + 1) rows

/-- `FaissVectorStore.add_texts(texts, metadatas, doc_ids)` (src/utils/
faiss.py lines 210-268). Embedding generation is the external provider
(modelled as always succeeding here; the background pipeline's failure path
is a parameter of the orchestrator model). `doc_ids = none` autogenerates
`doc_<n>` ids; Python `zip` truncation applies. -/
def FaissVectorStore.addTexts (s : FaissVectorStore) (texts : List PyStr)
    (metadatas : Option (List (List (String × String))))
    (docIds : Option (List String)) : FaissVectorStore × List String :=
  if texts.isEmpty then (s, [])
  else
    let ids := match docIds with
      | some l => l
      | none => (List.range texts.length).map
          (fun i => "doc_" ++ toString (s.current_idx + i))
    let metas := match metadatas with
      | some l => l
      | none => List.replicate texts.length []
    let rows := (texts.zip (metas.zip ids))
    addRowsAux s.current_idx
      { s with ntotal := s.ntotal + rows.length } [] 0 rows

/-- The per-id loop of `FaissVectorStore.delete_by_ids`
(src/utils/faiss.py lines 424-433): state is the store, the
`indices_to_remove` set and `deleted_count`. -/
def deleteIdsLoop (s : FaissVectorStore) :
    List String → FaissVectorStore × List Nat × Nat
  | [] => (s, [], 0)
  | docId :: rest =>
    match alistGet s.doc_id_to_idx docId with
    | some idx =>
      let s' := { s with
        documents := alistDel s.documents idx
        doc_id_to_idx := alistDel s.doc_id_to_idx docId }
      let (s2, removed, cnt) := deleteIdsLoop s' rest
      (s2, idx :: removed, cnt + 1)
    | none => deleteIdsLoop s rest

/-- `FaissVectorStore._rebuild_index(indices_to_remove)`
(src/utils/faiss.py lines 441-462): the surviving documents are collected in
slot-map order, the index and maps reset, and everything re-added through
`add_texts` (re-embedding each text). -/
def FaissVectorStore.rebuildIndex (s : FaissVectorStore)
    (indicesToRemove : List Nat) : FaissVectorStore :=
  let remaining := (s.documents.filter
      (fun p => ¬ indicesToRemove.contains p.1)).map Prod.snd
  let cleared : FaissVectorStore := ⟨[], [], 0, 0⟩
  if remaining.isEmpty then cleared
  else
    (cleared.addTexts (remaining.map (·.text))
      (some (remaining.map (·.meta))) (some (remaining.map (·.doc_id)))).1

/-- `FaissVectorStore.delete_by_ids(doc_ids)` (src/utils/faiss.py
lines 413-439): removes present ids from the metadata maps, rebuilds the
index when anything was removed, and returns the deleted count. -/
def FaissVectorStore.deleteByIds (s : FaissVectorStore) (docIds : List String) :
    FaissVectorStore × Nat :=
  let (s', removed, cnt) := deleteIdsLoop s docIds
  if 0 < cnt then ((s'.rebuildIndex removed), cnt) else (s', cnt)

/-- The hit-resolution loop shared by `search` and `search_by_vector`
(src/utils/faiss.py lines 324-348): the underlying structure returns raw
slot indices (`-1` is the no-match sentinel, skipped); slots with no
metadata entry are skipped; the rest resolve to their stored documents.
The numeric score conversion is not modelled (floating point). -/
def FaissVectorStore.resolveHits (s : FaissVectorStore) (hits : List Int) :
    List DocumentMetadata :=
  hits.foldl
    (fun results idx =>
      if idx = -1 then results
      else
        match alistGet s.documents idx.toNat with
        | some doc => results ++ [doc]
        | none => results)
    []

/-- The external doc ids currently stored (`doc_id` field of each live
metadata entry, in slot-map order). -/
def FaissVectorStore.liveIds (s : FaissVectorStore) : List String :=
  s.documents.map (fun p => p.2.doc_id)

/-! ## Shared data model (src/database/models.py) -/

/-- `DocumentStatusEnum`. -/
inductive DocumentStatusEnum | pending | processing | completed | failed
deriving Repr, DecidableEq

/-- `ChunkStrategyEnum`. -/
inductive ChunkStrategyEnum | semantic | fixed | recursive | paragraph
deriving Repr, DecidableEq

/-- One element of a chunk's JSON `entities` column. The pipeline stores
entity-name strings; the column is dynamic JSON, so a non-string element
(`malformed`) is representable and makes `entity_name.lower()` raise. -/
inductive EntityEntry
  | str (name : String)
  | malformed
deriving Repr, DecidableEq

/-- One relation record as stored in a chunk's JSON `relations` column by
`_extract_entities_relations_step` (src/api/services/document_service.py
lines 412-424). -/
structure GraphRelation where
  subject : String
  subject_type : String
  predicate : String
  object : String
  object_type : String
  confidence : ℚ
  chunk_ids : List String
  contexts : List String
deriving Repr, DecidableEq

/-- One element of the JSON `relations` column: a well-formed record, or a
non-dict element on which `relation.get(...)` raises. -/
inductive RelationEntry
  | record (r : GraphRelation)
  | malformed
deriving Repr, DecidableEq

/-- `DocumentChunk` ORM row (the columns the core reads or writes). -/
structure DocumentChunk where
  id : Nat
  document_id : Nat
  content : PyStr
  chunk_index : Nat
  chunk_type : String
  char_count : Nat
  word_count : Nat
  start_pos : Int
  end_pos : Int
  vector_id : Option String
  embedding_model : Option String
  has_embedding : Bool
  entities : List EntityEntry
  relations : List RelationEntry
deriving Repr, DecidableEq

/-- `KnowledgeBase` ORM row (the columns the core reads or writes). -/
structure KnowledgeBase where
  id : Nat
  default_chunk_strategy : ChunkStrategyEnum
  default_chunk_size : Nat
  default_chunk_overlap : Nat
  enable_vector_store : Bool
  enable_knowledge_graph : Bool
  enable_ner : Bool
  embedding_model : String
  document_count : Nat
  total_chunks : Nat
deriving Repr, DecidableEq

/-- `Document` ORM row (the columns the core reads or writes);
`error_message = ""` models SQL NULL. -/
structure Document where
  id : Nat
  knowledge_base_id : Nat
  content : PyStr
  chunk_strategy : Option ChunkStrategyEnum
  chunk_size : Option Nat
  chunk_overlap : Option Nat
  status : DocumentStatusEnum
  error_message : String
  char_count : Nat
  word_count : Nat
  chunk_count : Nat
  entity_count : Nat
  relation_count : Nat
  vector_stored : Bool
  graph_stored : Bool
deriving Repr, DecidableEq

/-! ## Graph search (src/api/services/document_service.py, `search_graph`)

The whole body of `search_graph` runs inside `try: ... except Exception:
return []`. The computation over the knowledge base's chunk list is
modelled in `Except String` (`searchGraphInner`); `searchGraph` is the
outer handler. `entity_matches` is a Python dict iterated in insertion
order, modelled as an association list. -/

/-- A chunk reference recorded in `entity_matches[name]['chunks']`. -/
structure MatchChunkRef where
  chunk_id : Nat
  document_id : Nat
  content : PyStr
  chunk_index : Nat
deriving Repr, DecidableEq

/-- A relation recorded in `entity_matches[name]['relations']`
(lines 609-617): the relation's fields plus the contributing chunk id. -/
structure MatchRelation where
  subject : String
  subject_type : String
  predicate : String
  object : String
  object_type : String
  confidence : ℚ
  chunk_id : Nat
deriving Repr, DecidableEq

/-- The per-entity accumulator value of `entity_matches`. -/
structure MatchData where
  chunks : List MatchChunkRef
  relations : List MatchRelation
  entity_type : String
deriving Repr, DecidableEq

/-- `entity_matches`: a dict from entity name to accumulated data,
iterated in insertion order. -/
abbrev EntityMatches := List (String × MatchData)

/-- The chunk dict appended to `entity_matches[...]['chunks']`. -/
def chunkRef (ch : DocumentChunk) : MatchChunkRef :=
  ⟨ch.id, ch.document_id, ch.content, ch.chunk_index⟩

/-- The entity-name branch of the per-chunk scan (lines 573-587): on a
case-insensitive substring match in either direction, ensure the entity's
accumulator exists (default `entity_type` is `Concept`) and append the
chunk dict unconditionally. -/
def processEntityName (query : String) (ch : DocumentChunk)
    (em : EntityMatches) (name : String) : EntityMatches :=
  if strContains (strLower name) (strLower query) ∨
      strContains (strLower query) (strLower name) then
    let em' := if (alistGet em name).isSome then em
               else alistSet em name ⟨[], [], "Concept"⟩
    match alistGet em' name with
    | some d => alistSet em' name { d with chunks := d.chunks ++ [chunkRef ch] }
    | none => em'
  else em

/-- The inner `for entity_name in [subject, object]` body of the relation
branch (lines 601-625): ensure the accumulator exists (typed from the
relation), append the relation record, then append the chunk dict only if
this chunk id is not already among the entity's recorded chunks. -/
def processRelEndpoint (r : GraphRelation) (ch : DocumentChunk)
    (em : EntityMatches) (name : String) : EntityMatches :=
  let em' := if (alistGet em name).isSome then em
             else alistSet em name
               ⟨[], [], if name = r.subject then r.subject_type else r.object_type⟩
  match alistGet em' name with
  | some d =>
    let d' := { d with relations := d.relations ++
      [⟨r.subject, r.subject_type, r.predicate, r.object, r.object_type,
        r.confidence, ch.id⟩] }
    let d'' := if (d'.chunks.map (·.chunk_id)).contains ch.id then d'
               else { d' with chunks := d'.chunks ++ [chunkRef ch] }
    alistSet em' name d''
  | none => em'

/-- The relation branch of the per-chunk scan (lines 590-625): when the
query appears case-insensitively in the subject, object or predicate,
record a match for both endpoints. -/
def processRelationRec (query : String) (ch : DocumentChunk)
    (em : EntityMatches) (r : GraphRelation) : EntityMatches :=
  if strContains (strLower r.subject) (strLower query) ∨
      strContains (strLower r.object) (strLower query) ∨
      strContains (strLower r.predicate) (strLower query) then
    [r.subject, r.object].foldl (processRelEndpoint r ch) em
  else em

/-- Scanning one element of a chunk's `entities` list; a malformed element
raises (`AttributeError` on `.lower()`). -/
def processEntityEntry (query : String) (ch : DocumentChunk)
    (em : EntityMatches) : EntityEntry → Except String EntityMatches
  | .str name => .ok (processEntityName query ch em name)
  | .malformed => .error "AttributeError"

/-- Scanning one element of a chunk's `relations` list; a malformed element
raises (`AttributeError` on `.get`). -/
def processRelationEntry (query : String) (ch : DocumentChunk)
    (em : EntityMatches) : RelationEntry → Except String EntityMatches
  | .record r => .ok (processRelationRec query ch em r)
  | .malformed => .error "AttributeError"

/-- The per-chunk scan: all entity entries, then all relation entries. -/
def processChunk (query : String) (em : EntityMatches) (ch : DocumentChunk) :
    Except String EntityMatches := do
  let em1 ← ch.entities.foldlM (fun acc e => processEntityEntry query ch acc e) em
  ch.relations.foldlM (fun acc r => processRelationEntry query ch acc r) em1

/-- Steps 1-2 of `search_graph`: accumulate `entity_matches` over every
chunk of the knowledge base. -/
def buildEntityMatches (chunks : List DocumentChunk) (query : String) :
    Except String EntityMatches :=
  chunks.foldlM (processChunk query) []

/-- An entry of a match's `related_entities` list. -/
structure RelatedEntity where
  name : String
  type : String
  relation : String
deriving Repr, DecidableEq

/-- One element of the list returned by `search_graph`. -/
structure GraphSearchResult where
  entity_name : String
  entity_type : String
  related_entities : List RelatedEntity
  relations : List MatchRelation
  chunk_ids : List String
  chunks : List MatchChunkRef
  relevance_score : ℚ
deriving Repr, DecidableEq

/-- One step of the related-entity derivation (lines 649-664): add the
other endpoint of the relation unless its name was already seen. -/
def relatedStep (entityName : String)
    (st : List RelatedEntity × List String) (rel : MatchRelation) :
    List RelatedEntity × List String :=
  let (res, seen) := st
  if rel.subject = entityName ∧ ¬ seen.contains rel.object then
    (res ++ [⟨rel.object, rel.object_type, rel.predicate⟩], seen ++ [rel.object])
  else if rel.object = entityName ∧ ¬ seen.contains rel.subject then
    (res ++ [⟨rel.subject, rel.subject_type, rel.predicate⟩], seen ++ [rel.subject])
  else (res, seen)

/-- The relevance score before the final clamp (lines 630-643): name-match
base (exact: 1.0; query contained in the entity name: 0.7; otherwise 0)
plus the capped relation-count and chunk-count weights. Scores are
modelled in ℚ. -/
def relevanceScore (query entityName : String) (d : MatchData) : ℚ :=
  let base : ℚ :=
    if strLower query = strLower entityName then 1
    else if strContains (strLower entityName) (strLower query) then 7/10
    else 0
  base + min ((d.relations.length : ℚ) * (1/10)) (1/2)
       + min ((d.chunks.length : ℚ) * (1/20)) (3/10)

/-- Building one element of `graph_results` from an `entity_matches` item
(lines 629-674). -/
def mkGraphResult (query : String) (p : String × MatchData) : GraphSearchResult :=
  let entityName := p.1
  let d := p.2
  let related := (d.relations.foldl (relatedStep entityName) ([], [])).1
  { entity_name := entityName
    entity_type := d.entity_type
    related_entities := related.take 5
    relations := d.relations.take 10
    chunk_ids := d.chunks.map (fun c => toString c.chunk_id)
    chunks := d.chunks
    relevance_score := min (relevanceScore query entityName d) 1 }

/-- Stable descending insertion by `relevance_score` (ties keep the
earlier element first, like Python's stable `sort(reverse=True)`). -/
def insertDesc (x : GraphSearchResult) :
    List GraphSearchResult → List GraphSearchResult
  | [] => [x]
  | y :: ys =>
    if y.relevance_score ≤ x.relevance_score then x :: y :: ys
    else y :: insertDesc x ys

/-- Stable sort by descending `relevance_score`
(`graph_results.sort(key=..., reverse=True)`). -/
def sortDesc : List GraphSearchResult → List GraphSearchResult
  | [] => []
  | x :: xs => insertDesc x (sortDesc xs)

/-- Steps 3-4 of `search_graph`: build, sort, and truncate the results. -/
def rankResults (query : String) (em : EntityMatches) (topK : Nat) :
    List GraphSearchResult :=
  (sortDesc (em.map (mkGraphResult query))).take topK

/-- The body of the `try` block of `search_graph`, over the chunk list the
knowledge-base query returns. -/
def searchGraphInner (chunks : List DocumentChunk) (query : String)
    (topK : Nat) : Except String (List GraphSearchResult) := do
  let em ← buildEntityMatches chunks query
  pure (rankResults query em topK)

/-- `search_graph(db, kb_id, query, top_k)` (src/api/services/
document_service.py lines 538-684): any exception from the scan is caught
and the empty list returned. -/
def searchGraph (chunks : List DocumentChunk) (query : String) (topK : Nat) :
    List GraphSearchResult :=
  match searchGraphInner chunks query topK with
  | .ok r => r
  | .error _ => []

/-- A chunk whose `entities` and `relations` JSON lists hold only
well-formed records. -/
def chunkWellFormed (ch : DocumentChunk) : Bool :=
  (ch.entities.all (fun e => match e with | .str _ => true | .malformed => false)) &&
  (ch.relations.all (fun r => match r with | .record _ => true | .malformed => false))

/-! ## Document processing orchestrator
(src/api/services/document_service.py, `DocumentProcessingService`)

`_process_document_worker` runs in a background thread with its own DB
session; the claims concern a single run, modelled as a pure transformation
of the document/knowledge-base/chunk rows. External effects are parameters:
the per-knowledge-base vector store (`none` when disabled or its creation
failed), the outcome of the embedding round trips, and the per-chunk NER
extraction outcomes. Timestamps and durations are not modelled. -/

/-- Python `s.find(sub)`: index of the first occurrence, or `-1`. -/
def pyFind (t sub : PyStr) : Int :=
  if sub.isPrefixOf t then 0
  else
    match t with
    | [] => -1
    | _ :: rest =>
      let r := pyFind rest sub
      if r = -1 then -1 else r + 1

/-- `_chunk_text(content, strategy, chunk_size, chunk_overlap)`
(src/api/services/document_service.py lines 322-344). The `TextChunker`
constructor's `ValueError` propagates. -/
def chunkTextSvc (content : PyStr) (strategy : ChunkStrategyEnum)
    (chunk_size chunk_overlap : Nat) : Except String (List PyStr) := do
  let c ← mkTextChunker chunk_size chunk_overlap
  pure (match strategy with
    | .semantic => c.semanticChunking content .zh
    | .fixed => c.fixedSizeChunking content
    | .recursive => c.recursiveChunking content
    | .paragraph => c.paragraphChunking content)

/-- The strategy-value string stored in `chunk_type`. -/
def ChunkStrategyEnum.valueStr : ChunkStrategyEnum → String
  | .semantic => "semantic"
  | .fixed => "fixed"
  | .recursive => "recursive"
  | .paragraph => "paragraph"

/-- Effective chunk size: `document.chunk_size or kb.default_chunk_size`
(Python `or`, so an explicit `0` also falls back to the default). -/
def effChunkSize (doc : Document) (kb : KnowledgeBase) : Nat :=
  match doc.chunk_size with
  | some n => if n = 0 then kb.default_chunk_size else n
  | none => kb.default_chunk_size

/-- Effective chunk overlap: `document.chunk_overlap or
kb.default_chunk_overlap`. -/
def effChunkOverlap (doc : Document) (kb : KnowledgeBase) : Nat :=
  match doc.chunk_overlap with
  | some n => if n = 0 then kb.default_chunk_overlap else n
  | none => kb.default_chunk_overlap

/-- Effective strategy: `document.chunk_strategy or
kb.default_chunk_strategy` (enum members are truthy). -/
def effStrategy (doc : Document) (kb : KnowledgeBase) : ChunkStrategyEnum :=
  doc.chunk_strategy.getD kb.default_chunk_strategy

/-- `_chunk_document_step(db, document, kb)` (lines 278-320): run the
chunker with the effective configuration and persist one `DocumentChunk`
row per produced text. The database assigns primary keys sequentially from
`firstChunkId`. -/
def chunkDocumentStep (doc : Document) (kb : KnowledgeBase)
    (firstChunkId : Nat) : Except String (List DocumentChunk) := do
  let strategy := effStrategy doc kb
  let chunksText ← chunkTextSvc doc.content strategy (effChunkSize doc kb)
    (effChunkOverlap doc kb)
  pure (chunksText.enum.map (fun p =>
    let i := p.1
    let text := p.2
    let startPos : Int :=
      if 50 ≤ text.length then pyFind doc.content (text.take 50) else 0
    { id := firstChunkId + i
      document_id := doc.id
      content := text
      chunk_index := i
      chunk_type := strategy.valueStr
      char_count := text.length
      word_count := (pyWhitespaceSplit text).length
      start_pos := startPos
      end_pos := startPos + text.length
      vector_id := none
      embedding_model := none
      has_embedding := false
      entities := []
      relations := [] }))

/-- Outcome of the embedding round trips made by
`vector_store.add_texts`: either every call succeeds, or the provider
raises (`RuntimeError` on the first failing call, which aborts `add_texts`
before any insertion). -/
inductive EmbedOutcome | ok | unavailable
deriving Repr, DecidableEq

/-- `_vectorize_chunks_step(db, chunks, kb)` (lines 346-382): no-op when no
vector store is available; otherwise add every chunk text and record the
returned vector ids on the chunk rows. Any exception is logged and
swallowed, leaving the rows unchanged. -/
def vectorizeChunksStep (store : Option FaissVectorStore)
    (embed : EmbedOutcome) (chunks : List DocumentChunk)
    (modelName : String) : Option FaissVectorStore × List DocumentChunk :=
  match store with
  | none => (none, chunks)
  | some vs =>
    match embed with
    | .unavailable => (some vs, chunks)
    | .ok =>
      let texts := chunks.map (·.content)
      let metas := chunks.map (fun ch =>
        [("chunk_id", toString ch.id), ("document_id", toString ch.document_id),
         ("chunk_index", toString ch.chunk_index)])
      let ids := chunks.map (fun ch => "chunk_" ++ toString ch.id)
      let (vs2, added) := vs.addTexts texts (some metas) (some ids)
      (some vs2,
       (chunks.zip added).map (fun p =>
         { p.1 with vector_id := some p.2, has_embedding := true,
                    embedding_model := some modelName }))

/-- The result dict of `EntityRelationExtractor.process_text` for one
chunk. -/
structure ExtractResult where
  entities : List String
  relations : List GraphRelation
deriving Repr, DecidableEq

/-- `_extract_entities_relations_step(db, document, chunks, kb)`
(lines 384-443): per chunk, a failed extraction (`none`) is logged and the
chunk skipped; a successful one overwrites the chunk's `entities` and
`relations` columns. Returns the rewritten chunks, the number of distinct
entity names and the total relation count. -/
def extractEntitiesRelationsStep (extractor : Option (Nat → Option ExtractResult))
    (chunks : List DocumentChunk) : List DocumentChunk × Nat × Nat :=
  match extractor with
  | none => (chunks, 0, 0)
  | some outcome =>
    let step := fun (st : List DocumentChunk × List String × Nat)
        (ch : DocumentChunk) =>
      let (done, totalEntities, totalRelations) := st
      match outcome ch.id with
      | none => (done ++ [ch], totalEntities, totalRelations)
      | some res =>
        (done ++ [{ ch with
            entities := res.entities.map EntityEntry.str
            relations := res.relations.map RelationEntry.record }],
         totalEntities ++ res.entities, totalRelations + res.relations.length)
    let (done, totalEntities, totalRelations) := chunks.foldl step ([], [], 0)
    (done, totalEntities.dedup.length, totalRelations)

/-- `_store_to_knowledge_graph_step` triple flattening (lines 456-474):
well-formed relations with nonempty subject and object become
`(subject, subject_type, predicate, object, object_type)` tuples; any
exception (e.g. a malformed record) is swallowed by the step. -/
def flattenTriples (chunks : List DocumentChunk) :
    List (String × String × String × String × String) :=
  chunks.foldl (fun acc ch =>
    ch.relations.foldl (fun acc r =>
      match r with
      | .record r =>
        if ¬ r.subject = "" ∧ ¬ r.object = "" then
          acc ++ [(r.subject, r.subject_type, r.predicate, r.object, r.object_type)]
        else acc
      | .malformed => acc) acc) []

/-- The rows touched by one `_process_document_worker` run. -/
structure PipelineOutcome where
  document : Document
  kb : KnowledgeBase
  chunks : List DocumentChunk
  store : Option FaissVectorStore
deriving Repr

/-- `_process_document_worker(document_id, kb_id)` (src/api/services/
document_service.py lines 164-266) for an existing document and knowledge
base. Step 1 chunks (zero chunks raises `ValueError`, the only fatal step);
step 2 vectorizes when `enable_vector_store` and then sets
`vector_stored = True`; step 3 extracts entities/relations when
`enable_ner`; step 4 marks `graph_stored` when both graph and NER are
enabled; finally statistics are updated and the document marked
`COMPLETED`. Any exception lands in the `except` block, which marks the
document `FAILED` with the exception message. -/
def processDocumentWorker (doc0 : Document) (kb0 : KnowledgeBase)
    (store0 : Option FaissVectorStore) (embed : EmbedOutcome)
    (extractor : Option (Nat → Option ExtractResult))
    (firstChunkId : Nat) : PipelineOutcome :=
  let doc := { doc0 with status := DocumentStatusEnum.processing }
  match chunkDocumentStep doc kb0 firstChunkId with
  | .error e =>
    { document := { doc with status := .failed, error_message := e }
      kb := kb0
      chunks := []
      store := store0 }
  | .ok chunks =>
    if chunks.isEmpty then
      { document := { doc with
          status := .failed
          error_message := "文档分块失败，没有生成任何分块" }
        kb := kb0
        chunks := chunks
        store := store0 }
    else
      let (store1, chunks1, doc1) :=
        if kb0.enable_vector_store then
          let (s, cs) := vectorizeChunksStep store0 embed chunks kb0.embedding_model
          (s, cs, { doc with vector_stored := true })
        else (store0, chunks, doc)
      let (chunks2, doc2) :=
        if kb0.enable_ner then
          let (cs, ec, rc) := extractEntitiesRelationsStep extractor chunks1
          (cs, { doc1 with entity_count := ec, relation_count := rc })
        else (chunks1, doc1)
      let doc3 := if kb0.enable_knowledge_graph ∧ kb0.enable_ner then
          { doc2 with graph_stored := true }
        else doc2
      let doc4 := { doc3 with
        chunk_count := chunks2.length
        char_count := doc3.content.length
        word_count := (pyWhitespaceSplit doc3.content).length
        status := .completed }
      let kb1 := { kb0 with
        document_count := kb0.document_count + 1
        total_chunks := kb0.total_chunks + chunks2.length }
      { document := doc4, kb := kb1, chunks := chunks2, store := store1 }

/-! ## Submission de-duplication (`process_document_async` and the worker's
`finally` block)

`process_document_async` and the cleanup both run under
`self.processing_lock`, so each is one atomic step. An entry of
`processing_tasks` whose future is already done is re-submitted by the
code, but the entry is removed (under the same lock) before the worker
returns, so a live entry always denotes an unfinished run; `tasks` models
the key set of `processing_tasks` and `inflight` the multiset of units of
work handed to the thread pool and not yet finished. -/

structure ProcessingService where
  tasks : List Nat
  inflight : List Nat
deriving Repr, DecidableEq

/-- The freshly constructed service (`__init__`). -/
def ProcessingService.init : ProcessingService := ⟨[], []⟩

/-- `process_document_async(document_id, kb_id)` (lines 139-162): under the
lock, a duplicate submission for a still-outstanding document id returns
without submitting; otherwise one unit of work is handed to the executor
and recorded. -/
def ProcessingService.submitAsync (s : ProcessingService) (docId : Nat) :
    ProcessingService :=
  if s.tasks.contains docId then s
  else { tasks := docId :: s.tasks, inflight := docId :: s.inflight }

/-- The end of `_process_document_worker` (lines 268-274): whatever the
run's outcome (`success` is ignored), the `finally` block removes the
document's entry from `processing_tasks` under the lock, and the unit of
work leaves the pool. -/
def ProcessingService.finishWorker (s : ProcessingService) (docId : Nat)
    (success : Bool) : ProcessingService :=
  let _ := success
  { tasks := s.tasks.filter (fun x => ¬ x = docId)
    inflight := s.inflight.erase docId }

/-- Events observable at the service boundary. -/
inductive ServiceEvent
  | submit (docId : Nat)
  | finish (docId : Nat) (success : Bool)

/-- One atomic step of the service. -/
def stepService (s : ProcessingService) : ServiceEvent → ProcessingService
  | .submit d => s.submitAsync d
  | .finish d ok => s.finishWorker d ok

/-- The service state after a sequence of events from start-up. -/
def runService (events : List ServiceEvent) : ProcessingService :=
  events.foldl stepService ProcessingService.init

/-! ## Theorems -/

/-- C2: for every `chunk_size > 0` and `chunk_overlap ≥ chunk_size`,
constructing a `TextChunker` raises the configuration error (`ValueError`,
the spec's `ConfigurationError`). -/
theorem mkTextChunker_rejects_large_overlap (chunk_size chunk_overlap : Nat)
    (_hpos : 0 < chunk_size) (h : chunk_size ≤ chunk_overlap) :
    mkTextChunker chunk_size chunk_overlap =
      .error "chunk_overlap 必须小于 chunk_size" := by
  simp [mkTextChunker, h]

/-- C2 witness: `TextChunker(chunk_size=100, chunk_overlap=150)` raises. -/
theorem mkTextChunker_rejects_large_overlap_witness :
    0 < 100 ∧ 100 ≤ 150 ∧
      mkTextChunker 100 150 = .error "chunk_overlap 必须小于 chunk_size" :=
  ⟨by decide, by decide,
    mkTextChunker_rejects_large_overlap 100 150 (by decide) (by decide)⟩

/-- The fixed-size loop finishes within `len - start + 1` iterations when
the overlap is smaller than the window: each pass either advances the start
by `chunk_size - chunk_overlap ≥ 1` or exits via the progress guard. -/
theorem fixedSizeAux_isSome (c : TextChunker) (t : PyStr)
    (h : c.chunk_overlap < c.chunk_size) :
    ∀ fuel start cid, t.length - start < fuel →
      (fixedSizeAux c t fuel start cid).isSome := by
  intro fuel
  induction fuel with
  | zero => intro start cid h2; omega
  | succ n ih =>
    intro start cid h2
    rw [fixedSizeAux]
    split
    · dsimp only
      split
      · simp
      · have hrec := ih (min (start + c.chunk_size) t.length - c.chunk_overlap)
          (cid + 1) (by omega)
        rcases ho : fixedSizeAux c t n
            (min (start + c.chunk_size) t.length - c.chunk_overlap) (cid + 1) with
          _ | rest
        · rw [ho] at hrec; simp at hrec
        · simp only [ho]; simp
    · simp

/-- The `_force_split` loop finishes: its stride is
`chunk_size - chunk_overlap ≥ 1`. -/
theorem forceSplitAux_isSome (c : TextChunker) (t : PyStr)
    (h : c.chunk_overlap < c.chunk_size) :
    ∀ fuel i, t.length - i < fuel → (forceSplitAux c t fuel i).isSome := by
  intro fuel
  induction fuel with
  | zero => intro i h2; omega
  | succ n ih =>
    intro i h2
    rw [forceSplitAux]
    split
    · have hrec := ih (i + (c.chunk_size - c.chunk_overlap)) (by omega)
      rcases ho : forceSplitAux c t n (i + (c.chunk_size - c.chunk_overlap)) with
        _ | rest
      · rw [ho] at hrec; simp at hrec
      · simp only [ho]; simp
    · simp

/-- C9: for every text and every configuration with
`chunk_overlap < chunk_size`, the `fixed_size_chunking` loop and the
`_force_split` loop terminate within the `len(text) + 1` iteration budget. -/
theorem chunking_loops_terminate (c : TextChunker) (t : PyStr)
    (h : c.chunk_overlap < c.chunk_size) :
    (fixedSizeAux c t (t.length + 1) 0 0).isSome ∧
    (forceSplitAux c t (t.length + 1) 0).isSome :=
  ⟨fixedSizeAux_isSome c t h (t.length + 1) 0 0 (by omega),
   forceSplitAux_isSome c t h (t.length + 1) 0 (by omega)⟩

/-- C9 witness at a concrete configuration and text. -/
theorem chunking_loops_terminate_witness :
    (1 : Nat) < 3 ∧
    ((fixedSizeAux ⟨3, 1, true⟩ ['a','b','c','d','e'] 6 0 0).isSome ∧
     (forceSplitAux ⟨3, 1, true⟩ ['a','b','c','d','e'] 6 0).isSome) :=
  ⟨by decide, chunking_loops_terminate ⟨3, 1, true⟩ ['a','b','c','d','e'] (by decide)⟩

/-- The chunk positions computed by the fixed-size loop, independent of the
text contents: they are a function of the text's length only. -/
def fixedPositionsAux (size ov len : Nat) : Nat → Nat → Option (List (Nat × Nat))
  | 0, _ => none
  | fuel+1, start =>
    if start < len then
      let e := min (start + size) len
      let start2 := e - ov
      if len - ov ≤ start2 then some [(start, e)]
      else
        match fixedPositionsAux size ov len fuel start2 with
        | none => none
        | some rest => some ((start, e) :: rest)
    else some []

/-- The metadata positions of the fixed-size loop depend only on the
text's length. -/
theorem fixedSizeAux_positions (c : TextChunker) (t : PyStr) :
    ∀ fuel start cid,
      (fixedSizeAux c t fuel start cid).map
        (List.map (fun x => (x.2.start_pos, x.2.end_pos))) =
      fixedPositionsAux c.chunk_size c.chunk_overlap t.length fuel start := by
  intro fuel
  induction fuel with
  | zero => intro start cid; rfl
  | succ n ih =>
    intro start cid
    rw [fixedSizeAux, fixedPositionsAux]
    split
    · dsimp only
      split
      · rfl
      · rcases ho : fixedSizeAux c t n
            (min (start + c.chunk_size) t.length - c.chunk_overlap) (cid + 1) with
          _ | rest
        · have hpos := ih (min (start + c.chunk_size) t.length - c.chunk_overlap)
            (cid + 1)
          rw [ho] at hpos
          rw [← hpos]
          simp
        · have hpos := ih (min (start + c.chunk_size) t.length - c.chunk_overlap)
            (cid + 1)
          rw [ho] at hpos
          rw [← hpos]
          simp [pySlice]
    · rfl

/-- `getD` through `map`. -/
theorem getD_map {α β : Type} (f : α → β) (l : List α) (i : Nat) (d : α) :
    (l.map f).getD i (f d) = f (l.getD i d) := by
  induction l generalizing i with
  | nil => simp
  | cons x xs ih =>
    cases i with
    | zero => simp
    | succ j => simp only [List.getD_cons_succ]; exact ih j

/-- C4: fixed-size chunking with `chunk_size=100, chunk_overlap=20` on any
250-character string produces chunks whose start positions advance by
exactly 80 each step, and the final chunk's end position is 250, the input
length. -/
theorem fixed_size_250_chunk_positions (t : PyStr) (h : t.length = 250) :
    let ms := (⟨100, 20, true⟩ : TextChunker).fixedSizeChunkingMeta t
    let d : PyStr × ChunkMetadata := ([], ⟨0, 0, 0, 0, ""⟩)
    (∀ i, i + 1 < ms.length →
      (ms.getD (i + 1) d).2.start_pos = (ms.getD i d).2.start_pos + 80) ∧
    ms.length ≠ 0 ∧
    (ms.getD (ms.length - 1) d).2.end_pos = 250 := by
  intro ms d
  have hms : ms = (fixedSizeAux ⟨100, 20, true⟩ t (t.length + 1) 0 0).getD [] := rfl
  have hpos := fixedSizeAux_positions ⟨100, 20, true⟩ t (t.length + 1) 0 0
  rw [h] at hpos
  have hpos' : Option.map (List.map fun x => (x.2.start_pos, x.2.end_pos))
      (fixedSizeAux ⟨100, 20, true⟩ t (250 + 1) 0 0)
      = fixedPositionsAux 100 20 250 (250 + 1) 0 := hpos
  have hconc : fixedPositionsAux (100 : Nat) 20 250 (250 + 1) 0
      = some [(0, 100), (80, 180), (160, 250)] := by decide
  rw [hconc] at hpos'
  rcases haux : fixedSizeAux ⟨100, 20, true⟩ t (250 + 1) 0 0 with _ | l
  · rw [haux] at hpos'; simp at hpos'
  · rw [haux] at hpos'
    simp only [Option.map_some', Option.some.injEq] at hpos'
    have hmsl : ms = l := by rw [hms, h, haux]; rfl
    have hmap : ms.map (fun x => (x.2.start_pos, x.2.end_pos))
        = [(0, 100), (80, 180), (160, 250)] := by rw [hmsl]; exact hpos'
    have hlen : ms.length = 3 := by
      have := congrArg List.length hmap
      simpa using this
    have key : ∀ j, ([(0, 100), (80, 180), (160, 250)] : List (Nat × Nat)).getD j (0, 0)
        = ((ms.getD j d).2.start_pos, (ms.getD j d).2.end_pos) := by
      intro j
      rw [← hmap]
      exact getD_map (fun x => (x.2.start_pos, x.2.end_pos)) ms j d
    have s0 : (ms.getD 0 d).2.start_pos = 0 := (congrArg Prod.fst (key 0)).symm
    have s1 : (ms.getD 1 d).2.start_pos = 80 := (congrArg Prod.fst (key 1)).symm
    have s2 : (ms.getD 2 d).2.start_pos = 160 := (congrArg Prod.fst (key 2)).symm
    have e2 : (ms.getD 2 d).2.end_pos = 250 := (congrArg Prod.snd (key 2)).symm
    refine ⟨?_, ?_, ?_⟩
    · intro i hi
      rw [hlen] at hi
      have h01 : i = 0 ∨ i = 1 := by omega
      rcases h01 with rfl | rfl
      · show (ms.getD 1 d).2.start_pos = (ms.getD 0 d).2.start_pos + 80
        omega
      · show (ms.getD 2 d).2.start_pos = (ms.getD 1 d).2.start_pos + 80
        omega
    · omega
    · rw [hlen]
      show (ms.getD 2 d).2.end_pos = 250
      omega

/-- C4 witness at a concrete 250-character string. -/
theorem fixed_size_250_chunk_positions_witness :
    (List.replicate 250 'a').length = 250 ∧
    (let ms := (⟨100, 20, true⟩ : TextChunker).fixedSizeChunkingMeta
        (List.replicate 250 'a')
     let d : PyStr × ChunkMetadata := ([], ⟨0, 0, 0, 0, ""⟩)
     (∀ i, i + 1 < ms.length →
       (ms.getD (i + 1) d).2.start_pos = (ms.getD i d).2.start_pos + 80) ∧
     ms.length ≠ 0 ∧
     (ms.getD (ms.length - 1) d).2.end_pos = 250) :=
  ⟨List.length_replicate 250 'a',
   fixed_size_250_chunk_positions (List.replicate 250 'a')
     (List.length_replicate 250 'a')⟩

/-- Erasing from a duplicate-free list is filtering. -/
theorem nodup_erase_eq_filter' (l : List Nat) (d : Nat) (h : l.Nodup) :
    l.erase d = l.filter (fun x => ¬ x = d) := by
  induction l with
  | nil => rfl
  | cons x xs ih =>
    rcases List.nodup_cons.mp h with ⟨hx, hxs⟩
    by_cases hxd : x = d
    · subst hxd
      rw [List.erase_cons_head]
      have : ∀ y ∈ xs, (fun z => ¬ z = x : Nat → Prop) y := by
        intro y hy
        intro he; exact hx (he ▸ hy)
      rw [List.filter_cons]
      simp only [decide_eq_true_eq]
      rw [if_neg (by simp)]
      rw [List.filter_eq_self.mpr]
      intro y hy
      simpa using this y hy
    · rw [List.erase_cons_tail, List.filter_cons, if_pos (by simpa using hxd)]
      · rw [ih hxs]
      · simpa using hxd

/-- One service step preserves the de-duplication invariant: the key set of
`processing_tasks` equals the multiset of outstanding units of work, and it
is duplicate-free. -/
theorem stepService_inv (s : ProcessingService) (e : ServiceEvent)
    (h1 : s.tasks = s.inflight) (h2 : s.tasks.Nodup) :
    (stepService s e).tasks = (stepService s e).inflight ∧
    (stepService s e).tasks.Nodup := by
  cases e with
  | submit d =>
    simp only [stepService, ProcessingService.submitAsync]
    by_cases hc : s.tasks.contains d
    · simp only [hc, if_true]
      exact ⟨h1, h2⟩
    · simp only [hc, Bool.false_eq_true, if_false]
      refine ⟨by simp [h1], List.nodup_cons.mpr ⟨?_, h2⟩⟩
      intro hmem
      exact hc (List.elem_eq_true_of_mem hmem)
  | finish d ok =>
    simp only [stepService, ProcessingService.finishWorker]
    constructor
    · rw [← h1, nodup_erase_eq_filter' s.tasks d h2]
    · exact List.Nodup.filter _ h2

/-- C8: a duplicate submission while the same document id is outstanding is
a no-op and returns no error; along any event sequence there is never more
than one outstanding unit of work per document id; and finishing a run
releases the de-duplication slot regardless of the run's outcome. -/
theorem duplicate_submission_is_noop :
    (∀ (s : ProcessingService) (d : Nat),
      s.tasks.contains d → s.submitAsync d = s) ∧
    (∀ events : List ServiceEvent,
      ∀ docId, ((runService events).inflight.count docId) ≤ 1) ∧
    (∀ (s : ProcessingService) (d : Nat) (ok : Bool),
      (s.finishWorker d ok).tasks.contains d = false) := by
  refine ⟨?_, ?_, ?_⟩
  · intro s d h
    simp only [ProcessingService.submitAsync, h, if_true]
  · intro events docId
    have key : ∀ (evs : List ServiceEvent) (s : ProcessingService),
        s.tasks = s.inflight →
        s.tasks.Nodup →
        ((evs.foldl stepService s).tasks = (evs.foldl stepService s).inflight ∧
         (evs.foldl stepService s).tasks.Nodup) := by
      intro evs
      induction evs with
      | nil => intro s hh1 hh2; exact ⟨hh1, hh2⟩
      | cons e rest ih =>
        intro s hh1 hh2
        have hstep := stepService_inv s e hh1 hh2
        simpa using ih (stepService s e) hstep.1 hstep.2
    have h := key events ProcessingService.init rfl (by simp [ProcessingService.init])
    have hnd : (runService events).inflight.Nodup := by
      have := h.2
      rw [h.1] at this
      exact this
    exact (List.nodup_iff_count_le_one.mp hnd) docId
  · intro s d ok
    simp only [ProcessingService.finishWorker]
    rw [Bool.eq_false_iff]
    intro hcont
    have hmem := List.mem_of_elem_eq_true hcont
    have := List.of_mem_filter hmem
    simp at this

/-- C8 witness: submitting id 5 while it is outstanding changes nothing;
finishing releases the slot. -/
theorem duplicate_submission_is_noop_witness :
    ((⟨[5], [5]⟩ : ProcessingService).tasks.contains 5 = true ∧
      (⟨[5], [5]⟩ : ProcessingService).submitAsync 5 = ⟨[5], [5]⟩) ∧
    ((⟨[5], [5]⟩ : ProcessingService).finishWorker 5 false).tasks.contains 5
      = false :=
  ⟨⟨by decide, duplicate_submission_is_noop.1 ⟨[5], [5]⟩ 5 (by decide)⟩,
   duplicate_submission_is_noop.2.2 ⟨[5], [5]⟩ 5 false⟩

/-- Membership in a descending insertion. -/
theorem mem_insertDesc (x a : GraphSearchResult) (l : List GraphSearchResult) :
    a ∈ insertDesc x l ↔ a = x ∨ a ∈ l := by
  induction l with
  | nil => simp [insertDesc]
  | cons y ys ih =>
    rw [insertDesc]
    split
    · simp
    · simp [ih]
      tauto

/-- Descending insertion preserves sortedness by descending score. -/
theorem sorted_insertDesc (x : GraphSearchResult) (l : List GraphSearchResult)
    (h : List.Sorted (fun a b => b.relevance_score ≤ a.relevance_score) l) :
    List.Sorted (fun a b => b.relevance_score ≤ a.relevance_score)
      (insertDesc x l) := by
  induction l with
  | nil => simp [insertDesc]
  | cons y ys ih =>
    rw [insertDesc]
    rcases List.sorted_cons.mp h with ⟨hy, hys⟩
    split
    · rename_i hle
      refine List.sorted_cons.mpr ⟨?_, h⟩
      intro b hb
      rcases List.mem_cons.mp hb with rfl | hb2
      · exact hle
      · exact le_trans (hy b hb2) hle
    · rename_i hgt
      refine List.sorted_cons.mpr ⟨?_, ih hys⟩
      intro b hb
      rcases (mem_insertDesc x b ys).mp hb with rfl | hb
      · exact le_of_not_le hgt
      · exact hy b hb

/-- Membership in the stable descending sort. -/
theorem mem_sortDesc (a : GraphSearchResult) (l : List GraphSearchResult) :
    a ∈ sortDesc l ↔ a ∈ l := by
  induction l with
  | nil => simp [sortDesc]
  | cons y ys ih =>
    rw [sortDesc, mem_insertDesc]
    simp [ih]

/-- The stable descending sort is sorted by descending score. -/
theorem sorted_sortDesc (l : List GraphSearchResult) :
    List.Sorted (fun a b => b.relevance_score ≤ a.relevance_score) (sortDesc l) := by
  induction l with
  | nil => simp [sortDesc]
  | cons y ys ih => exact sorted_insertDesc y (sortDesc ys) ih

/-- The related-entity fold keeps names duplicate-free and recorded in the
seen set. -/
theorem relatedFold_nodup (entityName : String) (rels : List MatchRelation) :
    ∀ st : List RelatedEntity × List String,
      (st.1.map (fun x => x.name)).Nodup →
      (∀ n ∈ st.1.map (fun x => x.name), st.2.contains n) →
      (((rels.foldl (relatedStep entityName) st).1.map (fun x => x.name)).Nodup ∧
        ∀ n ∈ ((rels.foldl (relatedStep entityName) st).1.map (fun x => x.name)),
          ((rels.foldl (relatedStep entityName) st).2.contains n)) := by
  induction rels with
  | nil => intro st h1 h2; exact ⟨h1, h2⟩
  | cons rel rest ih =>
    intro st h1 h2
    rw [List.foldl_cons]
    apply ih
    · rw [relatedStep]
      split
      · rename_i hc
        simp only [List.map_append, List.map_cons, List.map_nil]
        rw [List.nodup_append]
        refine ⟨h1, List.nodup_singleton _, ?_⟩
        intro n hn hmem
        rw [List.mem_singleton] at hmem
        subst hmem
        exact hc.2 (h2 _ hn)
      · split
        · rename_i hc2
          simp only [List.map_append, List.map_cons, List.map_nil]
          rw [List.nodup_append]
          refine ⟨h1, List.nodup_singleton _, ?_⟩
          intro n hn hmem
          rw [List.mem_singleton] at hmem
          subst hmem
          exact hc2.2 (h2 _ hn)
        · exact h1
    · rw [relatedStep]
      split
      · rename_i hc
        intro n hn
        rw [List.map_append] at hn
        rcases List.mem_append.mp hn with hn2 | hn2
        · have hmem := List.mem_of_elem_eq_true (h2 n hn2)
          exact List.elem_eq_true_of_mem (List.mem_append.mpr (Or.inl hmem))
        · simp only [List.map_cons, List.map_nil, List.mem_singleton] at hn2
          subst hn2
          exact List.elem_eq_true_of_mem (List.mem_append.mpr (Or.inr (by simp)))
      · split
        · rename_i hc2
          intro n hn
          rw [List.map_append] at hn
          rcases List.mem_append.mp hn with hn2 | hn2
          · have hmem := List.mem_of_elem_eq_true (h2 n hn2)
            exact List.elem_eq_true_of_mem (List.mem_append.mpr (Or.inl hmem))
          · simp only [List.map_cons, List.map_nil, List.mem_singleton] at hn2
            subst hn2
            exact List.elem_eq_true_of_mem (List.mem_append.mpr (Or.inr (by simp)))
        · exact h2

/-- The per-entity bounds of one ranked result. -/
theorem mkGraphResult_props (query : String) (p : String × MatchData) :
    (mkGraphResult query p).related_entities.length ≤ 5 ∧
    ((mkGraphResult query p).related_entities.map (fun x => x.name)).Nodup ∧
    (mkGraphResult query p).relations.length ≤ 10 := by
  have hnd := relatedFold_nodup p.1 p.2.relations ([], []) (by simp) (by simp)
  refine ⟨?_, ?_, ?_⟩
  · simp [mkGraphResult]
  · rw [mkGraphResult]
    simp only
    rw [List.map_take]
    exact List.Nodup.sublist (List.take_sublist _ _) hnd.1
  · simp [mkGraphResult]

/-- The bounds of the ranked result list, for any accumulated matches. -/
theorem rankResults_props (query : String) (em : EntityMatches) (topK : Nat) :
    (rankResults query em topK).length ≤ topK ∧
    List.Sorted (fun a b => b.relevance_score ≤ a.relevance_score)
      (rankResults query em topK) ∧
    ∀ r ∈ rankResults query em topK,
      r.related_entities.length ≤ 5 ∧
      (r.related_entities.map (fun x => x.name)).Nodup ∧
      r.relations.length ≤ 10 := by
  refine ⟨?_, ?_, ?_⟩
  · rw [rankResults]
    simp [List.length_take]
  · rw [rankResults]
    exact List.Pairwise.sublist (List.take_sublist _ _) (sorted_sortDesc _)
  · intro r hr
    rw [rankResults] at hr
    have hr2 := List.take_subset _ _ hr
    have hr3 := (mem_sortDesc r _).mp hr2
    rcases List.mem_map.mp hr3 with ⟨p, _, rfl⟩
    exact mkGraphResult_props query p

/-- C6: for any chunk-store state and query, graph search returns at most
`top_k` results sorted by descending relevance score; each match's
related-entities list has length at most 5 with names deduplicated, and
each match's relations list has length at most 10. -/
theorem searchGraph_result_bounds (chunks : List DocumentChunk)
    (query : String) (topK : Nat) :
    (searchGraph chunks query topK).length ≤ topK ∧
    List.Sorted (fun a b => b.relevance_score ≤ a.relevance_score)
      (searchGraph chunks query topK) ∧
    ∀ r ∈ searchGraph chunks query topK,
      r.related_entities.length ≤ 5 ∧
      (r.related_entities.map (fun x => x.name)).Nodup ∧
      r.relations.length ≤ 10 := by
  rw [searchGraph]
  cases hinner : searchGraphInner chunks query topK with
  | error e => simp
  | ok res =>
    rw [searchGraphInner] at hinner
    cases hb : buildEntityMatches chunks query with
    | error e =>
      rw [hb] at hinner
      exact absurd hinner (by simp [Bind.bind, Except.bind])
    | ok em =>
      rw [hb] at hinner
      have : res = rankResults query em topK := by
        have := hinner
        simp [Bind.bind, Except.bind, pure, Except.pure] at this
        exact this.symm
      rw [this]
      exact rankResults_props query em topK

/-- The pure per-entry entity step (the action of the scan on a well-formed
entity entry; a malformed entry raises instead). -/
def entityEntryStep (query : String) (ch : DocumentChunk) (em : EntityMatches) :
    EntityEntry → EntityMatches
  | .str name => processEntityName query ch em name
  | .malformed => em

/-- The pure per-entry relation step. -/
def relationEntryStep (query : String) (ch : DocumentChunk) (em : EntityMatches) :
    RelationEntry → EntityMatches
  | .record r => processRelationRec query ch em r
  | .malformed => em

/-- The pure per-chunk scan, agreeing with `processChunk` on well-formed
chunks. -/
def processChunkPure (query : String) (em : EntityMatches) (ch : DocumentChunk) :
    EntityMatches :=
  ch.relations.foldl (relationEntryStep query ch)
    (ch.entities.foldl (entityEntryStep query ch) em)

/-- Entity entries that are all strings scan without raising. -/
theorem entityFold_ok (query : String) (ch : DocumentChunk) :
    ∀ (es : List EntityEntry) (em : EntityMatches),
      es.all (fun e => match e with | .str _ => true | .malformed => false) →
      es.foldlM (fun acc x => processEntityEntry query ch acc x) em =
        .ok (es.foldl (entityEntryStep query ch) em) := by
  intro es
  induction es with
  | nil => intro em _; rfl
  | cons x xs ih =>
    intro em h
    rw [List.all_cons, Bool.and_eq_true] at h
    cases x with
    | str name =>
      rw [List.foldlM_cons, List.foldl_cons]
      have := ih (entityEntryStep query ch em (.str name)) h.2
      simpa [processEntityEntry, entityEntryStep, Bind.bind, Except.bind] using this
    | malformed => simp at h

/-- A malformed entity entry makes the scan raise. -/
theorem entityFold_error (query : String) (ch : DocumentChunk) :
    ∀ (es : List EntityEntry) (em : EntityMatches),
      ¬ es.all (fun e => match e with | .str _ => true | .malformed => false) = true →
      ∃ e, es.foldlM (fun acc x => processEntityEntry query ch acc x) em = .error e := by
  intro es
  induction es with
  | nil => intro em h; simp at h
  | cons x xs ih =>
    intro em h
    cases x with
    | str name =>
      have h' : ¬ xs.all (fun e => match e with | .str _ => true | .malformed => false) = true := by
        simpa using h
      rcases ih (processEntityName query ch em name) h' with ⟨e, he⟩
      refine ⟨e, ?_⟩
      rw [List.foldlM_cons]
      simpa [processEntityEntry, Bind.bind, Except.bind] using he
    | malformed =>
      refine ⟨"AttributeError", ?_⟩
      rw [List.foldlM_cons]
      simp [processEntityEntry, Bind.bind, Except.bind]

/-- Relation entries that are all records scan without raising. -/
theorem relationFold_ok (query : String) (ch : DocumentChunk) :
    ∀ (rs : List RelationEntry) (em : EntityMatches),
      rs.all (fun r => match r with | .record _ => true | .malformed => false) →
      rs.foldlM (fun acc x => processRelationEntry query ch acc x) em =
        .ok (rs.foldl (relationEntryStep query ch) em) := by
  intro rs
  induction rs with
  | nil => intro em _; rfl
  | cons x xs ih =>
    intro em h
    rw [List.all_cons, Bool.and_eq_true] at h
    cases x with
    | record r =>
      rw [List.foldlM_cons, List.foldl_cons]
      have := ih (relationEntryStep query ch em (.record r)) h.2
      simpa [processRelationEntry, relationEntryStep, Bind.bind, Except.bind] using this
    | malformed => simp at h

/-- A malformed relation entry makes the scan raise. -/
theorem relationFold_error (query : String) (ch : DocumentChunk) :
    ∀ (rs : List RelationEntry) (em : EntityMatches),
      ¬ rs.all (fun r => match r with | .record _ => true | .malformed => false) = true →
      ∃ e, rs.foldlM (fun acc x => processRelationEntry query ch acc x) em = .error e := by
  intro rs
  induction rs with
  | nil => intro em h; simp at h
  | cons x xs ih =>
    intro em h
    cases x with
    | record r =>
      have h' : ¬ xs.all (fun r => match r with | .record _ => true | .malformed => false) = true := by
        simpa using h
      rcases ih (processRelationRec query ch em r) h' with ⟨e, he⟩
      refine ⟨e, ?_⟩
      rw [List.foldlM_cons]
      simpa [processRelationEntry, Bind.bind, Except.bind] using he
    | malformed =>
      refine ⟨"AttributeError", ?_⟩
      rw [List.foldlM_cons]
      simp [processRelationEntry, Bind.bind, Except.bind]

/-- On a well-formed chunk, the scan computes the pure step. -/
theorem processChunk_ok (query : String) (ch : DocumentChunk)
    (em : EntityMatches) (h : chunkWellFormed ch) :
    processChunk query em ch = .ok (processChunkPure query em ch) := by
  rw [chunkWellFormed, Bool.and_eq_true] at h
  rw [processChunk, processChunkPure]
  rw [entityFold_ok query ch ch.entities em h.1]
  simpa [Bind.bind, Except.bind] using
    relationFold_ok query ch ch.relations
      (ch.entities.foldl (entityEntryStep query ch) em) h.2

/-- On a malformed chunk, the scan raises. -/
theorem processChunk_error (query : String) (ch : DocumentChunk)
    (em : EntityMatches) (h : ¬ chunkWellFormed ch = true) :
    ∃ e, processChunk query em ch = .error e := by
  rw [chunkWellFormed] at h
  by_cases he : ch.entities.all
      (fun e => match e with | .str _ => true | .malformed => false) = true
  · have hr : ¬ ch.relations.all
        (fun r => match r with | .record _ => true | .malformed => false) = true := by
      intro hr
      exact h (by rw [he, hr]; rfl)
    rcases relationFold_error query ch ch.relations
        (ch.entities.foldl (entityEntryStep query ch) em) hr with ⟨e, hee⟩
    refine ⟨e, ?_⟩
    rw [processChunk, entityFold_ok query ch ch.entities em he]
    simpa [Bind.bind, Except.bind] using hee
  · rcases entityFold_error query ch ch.entities em he with ⟨e, hee⟩
    refine ⟨e, ?_⟩
    rw [processChunk, hee]
    rfl

/-- On a fully well-formed chunk store, `entity_matches` accumulation is
the pure fold. -/
theorem buildEntityMatches_ok (query : String) :
    ∀ (chunks : List DocumentChunk) (em : EntityMatches),
      (∀ ch ∈ chunks, chunkWellFormed ch) →
      chunks.foldlM (processChunk query) em =
        .ok (chunks.foldl (processChunkPure query) em) := by
  intro chunks
  induction chunks with
  | nil => intro em _; rfl
  | cons c rest ih =>
    intro em h
    rw [List.foldlM_cons, List.foldl_cons,
      processChunk_ok query c em (h c (by simp))]
    simpa [Bind.bind, Except.bind] using
      ih (processChunkPure query em c) (fun ch hch => h ch (by simp [hch]))

/-- A malformed record anywhere in the chunk store makes the accumulation
raise. -/
theorem buildEntityMatches_error (query : String) :
    ∀ (chunks : List DocumentChunk) (em : EntityMatches),
      ¬ (∀ ch ∈ chunks, chunkWellFormed ch) →
      ∃ e, chunks.foldlM (processChunk query) em = .error e := by
  intro chunks
  induction chunks with
  | nil => intro em h; exact absurd (by simp) h
  | cons c rest ih =>
    intro em h
    by_cases hc : chunkWellFormed c
    · have h' : ¬ (∀ ch ∈ rest, chunkWellFormed ch) := by
        intro hall
        exact h (by
          intro ch hch
          rcases List.mem_cons.mp hch with rfl | hch2
          · exact hc
          · exact hall ch hch2)
      rcases ih (processChunkPure query em c) h' with ⟨e, he⟩
      refine ⟨e, ?_⟩
      rw [List.foldlM_cons, processChunk_ok query c em hc]
      simpa [Bind.bind, Except.bind] using he
    · rcases processChunk_error query c em hc with ⟨e, he⟩
      refine ⟨e, ?_⟩
      rw [List.foldlM_cons, he]
      rfl

/-- C10: `search_graph` never propagates an exception: a raising scan
(e.g. any malformed entity or relation record in the store) results in the
empty list being returned by the outer handler. -/
theorem searchGraph_swallows_exceptions (chunks : List DocumentChunk)
    (query : String) (topK : Nat) :
    (∀ e, searchGraphInner chunks query topK = .error e →
      searchGraph chunks query topK = []) ∧
    (¬ (∀ ch ∈ chunks, chunkWellFormed ch) →
      searchGraph chunks query topK = []) := by
  constructor
  · intro e he
    rw [searchGraph, he]
  · intro h
    rcases buildEntityMatches_error query chunks [] h with ⟨e, he⟩
    rw [searchGraph, searchGraphInner, buildEntityMatches, he]
    rfl

/-- C10 witness: a store holding one chunk with a malformed entity record
yields the empty result list. -/
theorem searchGraph_swallows_exceptions_witness :
    (¬ (∀ ch ∈ ([⟨1, 1, [], 0, "semantic", 0, 0, 0, 0, none, none, false,
        [EntityEntry.malformed], []⟩] : List DocumentChunk), chunkWellFormed ch)) ∧
    searchGraph [⟨1, 1, [], 0, "semantic", 0, 0, 0, 0, none, none, false,
        [EntityEntry.malformed], []⟩] "q" 5 = [] :=
  ⟨by decide,
   (searchGraph_swallows_exceptions _ "q" 5).2 (by decide)⟩

/-- The result list is the ranked matches whenever the scan succeeds. -/
theorem searchGraphInner_eq (chunks : List DocumentChunk) (query : String)
    (topK : Nat) :
    searchGraphInner chunks query topK =
      (buildEntityMatches chunks query).map
        (fun em => rankResults query em topK) := by
  rw [searchGraphInner]
  cases hb : buildEntityMatches chunks query <;>
    simp [hb, Bind.bind, Except.bind, Except.map, pure, Except.pure]

/-- The relevance formula as the claim words it: base 0.7 for a substring
match in either direction. Stated for refinement comparison with the
implemented `relevanceScore`. -/
def claimedRelevanceScore (query entityName : String)
    (relationCount chunkCount : Nat) : ℚ :=
  let base : ℚ :=
    if strLower query = strLower entityName then 1
    else if strContains (strLower entityName) (strLower query) ∨
        strContains (strLower query) (strLower entityName) then 7/10
    else 0
  min (base + min ((relationCount : ℚ) * (1/10)) (1/2)
    + min ((chunkCount : ℚ) * (1/20)) (3/10)) 1

/-- C3 counterexample: entity `"ab"` is matched by query `"abc"` (the
entity name is a substring of the query, the match rule of the scan), with
0 relations and 1 chunk. The claim's formula gives `0.7 + 0.05 = 0.75`,
but the code's base case only awards 0.7 when the query is a substring of
the entity name, so the computed score is `0 + 0.05 = 1/20 ≠ 3/4`. -/
theorem searchGraph_score_cex :
    ((searchGraph [⟨1, 1, [], 0, "semantic", 0, 0, 0, 0, none, none, false,
        [EntityEntry.str "ab"], []⟩] "abc" 5).map
      (fun r => (r.entity_name, r.relevance_score)) = [("ab", 1/20)]) ∧
    claimedRelevanceScore "abc" "ab" 0 1 = 3/4 ∧
    ¬ ((1 : ℚ)/20 = 3/4) := by
  refine ⟨?_, ?_, by norm_num⟩
  · have h1 : searchGraph [⟨1, 1, [], 0, "semantic", 0, 0, 0, 0, none, none,
        false, [EntityEntry.str "ab"], []⟩] "abc" 5
        = [⟨"ab", "Concept", [], [], ["1"], [⟨1, 1, [], 0⟩],
            min (relevanceScore "abc" "ab" ⟨[⟨1, 1, [], 0⟩], [], "Concept"⟩) 1⟩] :=
      by rfl
    rw [h1]
    have h2 : min (relevanceScore "abc" "ab" ⟨[⟨1, 1, [], 0⟩], [], "Concept"⟩) 1
        = 1/20 := by
      norm_num [relevanceScore, strLower, strContains]
      rw [if_neg (by decide), if_neg (by decide)]
      norm_num [min_def]
    rw [List.map_cons, List.map_nil, h2]
  · norm_num [claimedRelevanceScore, strLower, strContains]
    rw [if_neg (by decide), if_pos (by decide)]
    norm_num [min_def]

/-- C3 (amended): every returned match's score is
`min(base + min(relations*0.1, 0.5) + min(chunks*0.05, 0.3), 1)` where the
base is 1.0 for an exact case-insensitive match, 0.7 when the query is a
substring of the entity name (but not when only the entity name is a
substring of the query), and 0 otherwise; the relation count is taken
before the display truncation to 10. -/
theorem searchGraph_score_formula (chunks : List DocumentChunk)
    (query : String) (topK : Nat) :
    ∀ r ∈ searchGraph chunks query topK, ∃ d : MatchData,
      r.chunks = d.chunks ∧ r.relations = d.relations.take 10 ∧
      r.relevance_score =
        min ((if strLower query = strLower r.entity_name then (1 : ℚ)
              else if strContains (strLower r.entity_name) (strLower query)
              then 7/10 else 0)
          + min ((d.relations.length : ℚ) * (1/10)) (1/2)
          + min ((d.chunks.length : ℚ) * (1/20)) (3/10)) 1 := by
  intro r hr
  rw [searchGraph, searchGraphInner_eq] at hr
  cases hb : buildEntityMatches chunks query with
  | error e => rw [hb] at hr; simp [Except.map] at hr
  | ok em =>
    rw [hb] at hr
    simp only [Except.map] at hr
    rw [rankResults] at hr
    have hr2 := List.take_subset _ _ hr
    have hr3 := (mem_sortDesc r _).mp hr2
    rcases List.mem_map.mp hr3 with ⟨p, _, rfl⟩
    exact ⟨p.2, rfl, rfl, rfl⟩

/-- C3 witness: an exact match with no relations and one chunk. -/
theorem searchGraph_score_formula_witness :
    let r0 : GraphSearchResult :=
      ⟨"张三", "Concept", [], [], ["1"], [⟨1, 1, [], 0⟩],
        min (relevanceScore "张三" "张三" ⟨[⟨1, 1, [], 0⟩], [], "Concept"⟩) 1⟩
    ∃ d : MatchData,
      r0.chunks = d.chunks ∧ r0.relations = d.relations.take 10 ∧
      r0.relevance_score =
        min ((if strLower "张三" = strLower r0.entity_name then (1 : ℚ)
              else if strContains (strLower r0.entity_name) (strLower "张三")
              then 7/10 else 0)
          + min ((d.relations.length : ℚ) * (1/10)) (1/2)
          + min ((d.chunks.length : ℚ) * (1/20)) (3/10)) 1 := by
  intro r0
  have hs : searchGraph [⟨1, 1, [], 0, "semantic", 0, 0, 0, 0, none, none,
      false, [EntityEntry.str "张三"], []⟩] "张三" 5 = [r0] := by rfl
  have hmem : r0 ∈ searchGraph [⟨1, 1, [], 0, "semantic", 0, 0, 0, 0, none,
      none, false, [EntityEntry.str "张三"], []⟩] "张三" 5 := by
    rw [hs]
    exact List.mem_singleton_self _
  exact searchGraph_score_formula _ "张三" 5 r0 hmem

/-- The well-formed entity names of a chunk's `entities` column. -/
def entityNames (ch : DocumentChunk) : List String :=
  ch.entities.filterMap (fun e => match e with
    | .str n => some n
    | .malformed => none)

/-- A looked-up binding is a member. -/
theorem alistGet_mem {α β : Type} [DecidableEq α] (m : List (α × β)) (k : α)
    (v : β) (h : alistGet m k = some v) : (k, v) ∈ m := by
  rw [alistGet] at h
  cases hf : m.find? (fun p => p.1 = k) with
  | none => rw [hf] at h; exact absurd h (by simp)
  | some p0 =>
    rw [hf] at h
    have hp0 := List.find?_some hf
    have hmem := List.mem_of_find?_eq_some hf
    have hk : p0.1 = k := by simpa using hp0
    have hv : p0.2 = v := by simpa using h
    have : p0 = (k, v) := by
      rw [← hk, ← hv]
    rw [← this]
    exact hmem

/-- Entries of an updated association list: the written binding, or an old
binding under a different key. -/
theorem mem_alistSet {α β : Type} [DecidableEq α] (m : List (α × β)) (k : α)
    (v : β) (p : α × β) (h : p ∈ alistSet m k v) :
    p = (k, v) ∨ (p ∈ m ∧ ¬ p.1 = k) := by
  rw [alistSet] at h
  split at h
  · rcases List.mem_map.mp h with ⟨q, hq, hfq⟩
    by_cases hk : q.1 = k
    · left; rw [← hfq]; simp [hk]
    · right
      have hq2 : (if q.1 = k then (k, v) else q) = q := by simp [hk]
      rw [← hfq, hq2]
      exact ⟨hq, hk⟩
  · rename_i hnone
    rcases List.mem_append.mp h with hm | hp
    · right
      refine ⟨hm, ?_⟩
      have := List.find?_eq_none.mp (by
        cases hf : m.find? (fun p => p.1 = k) with
        | none => rfl
        | some q => rw [hf] at hnone; simp at hnone)
      simpa using this p hm
    · left; simpa using hp

/-- Writing an absent key appends the binding. -/
theorem alistSet_absent {α β : Type} [DecidableEq α] (m : List (α × β)) (k : α)
    (v : β) (h : (m.find? (fun p => p.1 = k)).isSome = false) :
    alistSet m k v = m ++ [(k, v)] := by
  rw [alistSet]
  split
  · rename_i hs; rw [h] at hs; exact absurd hs (by simp)
  · rfl

/-- Looking up a freshly appended binding. -/
theorem alistGet_append_self {α β : Type} [DecidableEq α] (m : List (α × β))
    (k : α) (v : β) (h : m.find? (fun p => p.1 = k) = none) :
    alistGet (m ++ [(k, v)]) k = some v := by
  rw [alistGet, List.find?_append, h]
  simp

/-- The chunk-id lists recorded in the accumulated matches: every entry is
duplicate-free and refers only to already-scanned chunks. -/
def emInv (em : EntityMatches) (processed : List Nat) : Prop :=
  ∀ p ∈ em, ((p.2.chunks.map (fun c => c.chunk_id)).Nodup ∧
    ∀ cid ∈ p.2.chunks.map (fun c => c.chunk_id), cid ∈ processed)

/-- Mid-scan invariant while the current chunk's entity list is being
walked: the current chunk id may appear in an entry only if that entry's
name was already walked (`seen`). -/
def emInvMid (em : EntityMatches) (processed : List Nat) (chId : Nat)
    (seen : List String) : Prop :=
  ∀ p ∈ em, ((p.2.chunks.map (fun c => c.chunk_id)).Nodup ∧
    (∀ cid ∈ p.2.chunks.map (fun c => c.chunk_id),
      cid ∈ processed ∨ cid = chId) ∧
    (chId ∈ p.2.chunks.map (fun c => c.chunk_id) → p.1 ∈ seen))

/-- Post-entity-walk invariant, kept through the relation walk (which
checks membership before appending the chunk). -/
def emInvB (em : EntityMatches) (processed : List Nat) (chId : Nat) : Prop :=
  ∀ p ∈ em, ((p.2.chunks.map (fun c => c.chunk_id)).Nodup ∧
    ∀ cid ∈ p.2.chunks.map (fun c => c.chunk_id),
      cid ∈ processed ∨ cid = chId)

/-- `alistGet` is populated exactly when `find?` is. -/
theorem alistGet_isSome {α β : Type} [DecidableEq α] (m : List (α × β)) (k : α) :
    (alistGet m k).isSome = (m.find? (fun p => p.1 = k)).isSome := by
  rw [alistGet]
  cases m.find? (fun p => p.1 = k) <;> rfl

/-- The entity-loop body preserves the mid-scan invariant for a name not
walked yet: the chunk dict is appended to that name's entry only, and that
entry cannot already hold the current chunk id. -/
theorem processEntityName_inv (query : String) (ch : DocumentChunk)
    (processed : List Nat) (em : EntityMatches) (seen : List String)
    (n : String) (hinv : emInvMid em processed ch.id seen) (hn : n ∉ seen) :
    emInvMid (processEntityName query ch em n) processed ch.id (seen ++ [n]) := by
  have hweak : ∀ em2, emInvMid em2 processed ch.id seen →
      ∀ p ∈ em2, ((p.2.chunks.map (fun c => c.chunk_id)).Nodup ∧
        (∀ cid ∈ p.2.chunks.map (fun c => c.chunk_id),
          cid ∈ processed ∨ cid = ch.id) ∧
        (ch.id ∈ p.2.chunks.map (fun c => c.chunk_id) → p.1 ∈ seen ++ [n])) := by
    intro em2 hi p hp
    rcases hi p hp with ⟨h1, h2, h3⟩
    exact ⟨h1, h2, fun hc => List.mem_append.mpr (Or.inl (h3 hc))⟩
  rw [processEntityName]
  split
  · by_cases hsome : (alistGet em n).isSome
    · rcases Option.isSome_iff_exists.mp hsome with ⟨d, hd⟩
      simp [hd]
      intro p hp
      rcases mem_alistSet _ _ _ p hp with rfl | ⟨hpm, hpk⟩
      · have hdm := alistGet_mem _ _ _ hd
        rcases hinv (n, d) hdm with ⟨h1, h2, h3⟩
        simp only [List.map_append]
        refine ⟨?_, ?_, ?_⟩
        · rw [List.nodup_append]
          refine ⟨h1, by simp [chunkRef], ?_⟩
          intro cid hcid hcid2
          simp [chunkRef] at hcid2
          subst hcid2
          exact hn (h3 hcid)
        · intro cid hcid
          rcases List.mem_append.mp hcid with hc | hc
          · exact h2 cid hc
          · simp [chunkRef] at hc
            exact Or.inr hc
        · intro _
          simp
      · rcases hweak em hinv p hpm with hres
        exact hres
    · have hfind : em.find? (fun p => p.1 = n) = none := by
        rw [alistGet_isSome] at hsome
        exact Option.not_isSome_iff_eq_none.mp (by simpa using hsome)
      have habs : alistSet em n ⟨[], [], "Concept"⟩ = em ++ [(n, ⟨[], [], "Concept"⟩)] :=
        alistSet_absent _ _ _ (by rw [hfind]; rfl)
      simp only [hsome, Bool.false_eq_true, if_false, habs,
        alistGet_append_self em n _ hfind]
      intro p hp
      rcases mem_alistSet _ _ _ p hp with rfl | ⟨hpm, hpk⟩
      · refine ⟨by simp, ?_, ?_⟩
        · intro cid hcid
          simp [chunkRef] at hcid
          exact Or.inr hcid
        · intro _
          simp
      · rcases List.mem_append.mp hpm with hm | hm
        · exact hweak em hinv p hm
        · rw [List.mem_singleton] at hm
          rw [hm] at hpk
          exact absurd rfl hpk
  · exact hweak em hinv

/-- The relation-loop endpoint body preserves the post-walk invariant:
the chunk dict is appended only after an explicit membership check on the
entry's chunk ids. -/
theorem processRelEndpoint_inv (r : GraphRelation) (ch : DocumentChunk)
    (processed : List Nat) (em : EntityMatches) (name : String)
    (hinv : emInvB em processed ch.id) :
    emInvB (processRelEndpoint r ch em name) processed ch.id := by
  rw [processRelEndpoint]
  have hinv' : emInvB (if (alistGet em name).isSome then em
      else alistSet em name
        ⟨[], [], if name = r.subject then r.subject_type else r.object_type⟩)
      processed ch.id := by
    split
    · exact hinv
    · rename_i hns
      have hfind : em.find? (fun p => p.1 = name) = none := by
        rw [alistGet_isSome] at hns
        exact Option.not_isSome_iff_eq_none.mp (by simpa using hns)
      rw [alistSet_absent _ _ _ (by rw [hfind]; rfl)]
      intro p hp
      rcases List.mem_append.mp hp with hm | hm
      · exact hinv p hm
      · rw [List.mem_singleton] at hm
        subst hm
        exact ⟨by simp, by simp⟩
  generalize hme : (if (alistGet em name).isSome then em
      else alistSet em name
        ⟨[], [], if name = r.subject then r.subject_type else r.object_type⟩) = em2 at hinv' ⊢
  cases hd : alistGet em2 name with
  | none => exact hinv'
  | some d =>
    intro p hp
    rcases mem_alistSet _ _ _ p hp with rfl | ⟨hpm, _⟩
    · have hdm := alistGet_mem _ _ _ hd
      rcases hinv' (name, d) hdm with ⟨h1, h2⟩
      split
      · exact ⟨h1, h2⟩
      · rename_i hnc
        simp only [List.map_append]
        refine ⟨?_, ?_⟩
        · rw [List.nodup_append]
          refine ⟨h1, by simp [chunkRef], ?_⟩
          intro cid hcid hcid2
          simp [chunkRef] at hcid2
          subst hcid2
          exact hnc (by
            have : (d.chunks.map (fun c => c.chunk_id)).contains ch.id = true :=
              List.elem_eq_true_of_mem hcid
            simpa using this)
        · intro cid hcid
          rcases List.mem_append.mp hcid with hc | hc
          · exact h2 cid hc
          · simp [chunkRef] at hc
            exact Or.inr hc
    · exact hinv' p hpm

/-- Walking a chunk's whole entity list preserves the mid-scan invariant,
provided the remaining names are fresh and duplicate-free. -/
theorem entityFold_inv (query : String) (ch : DocumentChunk)
    (processed : List Nat) :
    ∀ (es : List EntityEntry) (seen : List String) (em : EntityMatches),
      emInvMid em processed ch.id seen →
      (∀ n ∈ es.filterMap (fun e => match e with
        | .str n => some n | .malformed => none), n ∉ seen) →
      (es.filterMap (fun e => match e with
        | .str n => some n | .malformed => none)).Nodup →
      emInvMid (es.foldl (entityEntryStep query ch) em) processed ch.id
        (seen ++ es.filterMap (fun e => match e with
          | .str n => some n | .malformed => none)) := by
  intro es
  induction es with
  | nil => intro seen em hinv _ _; simpa using hinv
  | cons e rest ih =>
    intro seen em hinv hdisj hnd
    cases e with
    | malformed =>
      rw [List.foldl_cons]
      have hid : entityEntryStep query ch em .malformed = em := rfl
      rw [hid]
      simp only [List.filterMap_cons] at hdisj hnd ⊢
      exact ih seen em hinv hdisj hnd
    | str n =>
      rw [List.foldl_cons]
      have hstep : entityEntryStep query ch em (.str n) =
        processEntityName query ch em n := rfl
      rw [hstep]
      simp only [List.filterMap_cons] at hdisj hnd ⊢
      have hn : n ∉ seen := hdisj n (by simp)
      have hnrest : n ∉ rest.filterMap (fun e => match e with
          | .str n => some n | .malformed => none) :=
        (List.nodup_cons.mp hnd).1
      have hinv' := processEntityName_inv query ch processed em seen n hinv hn
      have hih := ih (seen ++ [n]) _ hinv'
        (by
          intro m hm hmem
          rcases List.mem_append.mp hmem with hs | hs
          · exact hdisj m (by simp [hm]) hs
          · rw [List.mem_singleton] at hs
            subst hs
            exact hnrest hm)
        (List.nodup_cons.mp hnd).2
      rw [List.append_assoc] at hih
      simpa using hih

/-- One relation record preserves the post-walk invariant. -/
theorem processRelationRec_inv (query : String) (ch : DocumentChunk)
    (processed : List Nat) (em : EntityMatches) (r : GraphRelation)
    (h : emInvB em processed ch.id) :
    emInvB (processRelationRec query ch em r) processed ch.id := by
  rw [processRelationRec]
  split
  · simp only [List.foldl_cons, List.foldl_nil]
    exact processRelEndpoint_inv r ch processed _ r.object
      (processRelEndpoint_inv r ch processed em r.subject h)
  · exact h

/-- Walking a chunk's whole relation list preserves the post-walk
invariant. -/
theorem relationFold_inv (query : String) (ch : DocumentChunk)
    (processed : List Nat) :
    ∀ (rs : List RelationEntry) (em : EntityMatches),
      emInvB em processed ch.id →
      emInvB (rs.foldl (relationEntryStep query ch) em) processed ch.id := by
  intro rs
  induction rs with
  | nil => intro em h; simpa using h
  | cons x xs ih =>
    intro em h
    rw [List.foldl_cons]
    cases x with
    | record r => exact ih _ (processRelationRec_inv query ch processed em r h)
    | malformed => exact ih _ h

/-- The pure per-chunk scan preserves the chunk-id invariant when the
current chunk is fresh and its entity names are duplicate-free. -/
theorem processChunkPure_inv (query : String) (ch : DocumentChunk)
    (processed : List Nat) (em : EntityMatches)
    (hinv : emInv em processed) (hnotin : ch.id ∉ processed)
    (hnames : (entityNames ch).Nodup) :
    emInv (processChunkPure query em ch) (processed ++ [ch.id]) := by
  have h0 : emInvMid em processed ch.id [] := by
    intro p hp
    rcases hinv p hp with ⟨h1, h2⟩
    refine ⟨h1, fun cid hc => Or.inl (h2 cid hc), ?_⟩
    intro hc
    exact absurd (h2 ch.id hc) hnotin
  have h1 := entityFold_inv query ch processed ch.entities [] em h0
    (by simp) hnames
  have h2 : emInvB (ch.entities.foldl (entityEntryStep query ch) em)
      processed ch.id := by
    intro p hp
    rcases h1 p hp with ⟨a, b, _⟩
    exact ⟨a, b⟩
  have h3 := relationFold_inv query ch processed ch.relations _ h2
  intro p hp
  rcases h3 p hp with ⟨a, b⟩
  refine ⟨a, ?_⟩
  intro cid hc
  rcases b cid hc with hcase | hcase
  · exact List.mem_append.mpr (Or.inl hcase)
  · subst hcase
    exact List.mem_append.mpr (Or.inr (by simp))

/-- Folding the pure scan over a chunk list with fresh, duplicate-free ids
keeps every accumulated chunk list duplicate-free. -/
theorem buildPure_inv (query : String) :
    ∀ (chunks : List DocumentChunk) (processed : List Nat) (em : EntityMatches),
      emInv em processed →
      (processed ++ chunks.map (fun ch => ch.id)).Nodup →
      (∀ ch ∈ chunks, (entityNames ch).Nodup) →
      emInv (chunks.foldl (processChunkPure query) em)
        (processed ++ chunks.map (fun ch => ch.id)) := by
  intro chunks
  induction chunks with
  | nil => intro processed em h _ _; simpa using h
  | cons c rest ih =>
    intro processed em hinv hnd hnames
    rw [List.foldl_cons, List.map_cons]
    have hrearr : processed ++ c.id :: rest.map (fun ch => ch.id)
        = (processed ++ [c.id]) ++ rest.map (fun ch => ch.id) := by
      rw [List.append_assoc]
      rfl
    have hcid : c.id ∉ processed := by
      intro hmem
      rw [List.map_cons] at hnd
      exact (List.disjoint_of_nodup_append hnd) hmem (by simp)
    have hstep := processChunkPure_inv query c processed em hinv hcid
      (hnames c (by simp))
    have hnd' : ((processed ++ [c.id]) ++ rest.map (fun ch => ch.id)).Nodup := by
      rw [← hrearr]
      rw [List.map_cons] at hnd
      exact hnd
    have hrec := ih (processed ++ [c.id]) _ hstep hnd'
      (fun ch hch => hnames ch (by simp [hch]))
    rw [hrearr]
    exact hrec

/-- C7 (amended): whenever the scan succeeds, and provided the knowledge
base's chunks have pairwise-distinct ids (database primary keys) and no
chunk lists the same entity name twice, each accumulated match's chunk
list is deduplicated by chunk id. Without the entity-name proviso the
entity loop appends the chunk dict unconditionally and duplicates appear
(see the counterexample); relations are appended without deduplication. -/
theorem entity_matches_chunk_dedup (chunks : List DocumentChunk)
    (query : String) (em : EntityMatches)
    (hids : (chunks.map (fun ch => ch.id)).Nodup)
    (hnames : ∀ ch ∈ chunks, (entityNames ch).Nodup)
    (hok : buildEntityMatches chunks query = .ok em) :
    ∀ p ∈ em, (p.2.chunks.map (fun c => c.chunk_id)).Nodup := by
  have hwf : ∀ ch ∈ chunks, chunkWellFormed ch := by
    by_contra hcon
    rcases buildEntityMatches_error query chunks [] hcon with ⟨e, he⟩
    rw [buildEntityMatches] at hok
    rw [he] at hok
    exact absurd hok (by simp)
  have hpure := buildEntityMatches_ok query chunks [] hwf
  rw [buildEntityMatches] at hok
  rw [hok] at hpure
  have hem : em = chunks.foldl (processChunkPure query) [] := by
    simpa using hpure
  rw [hem]
  have hmain := buildPure_inv query chunks [] []
    (by intro p hp; exact absurd hp (List.not_mem_nil p))
    (by simpa using hids) hnames
  intro p hp
  exact (hmain p hp).1

/-- C7 counterexample: a chunk whose entity list holds the name "a" twice.
The entity loop appends the chunk dict once per occurrence, with no
membership check, so the accumulated match for "a" records chunk id 1
twice; the duplicated relation is also kept twice (relations are never
deduplicated). -/
theorem entity_matches_chunk_dedup_cex :
    ((buildEntityMatches
        [⟨1, 1, [], 0, "semantic", 0, 0, 0, 0, none, none, false,
          [EntityEntry.str "a", EntityEntry.str "a"],
          [RelationEntry.record ⟨"a", "T", "p", "b", "U", 1, [], []⟩,
           RelationEntry.record ⟨"a", "T", "p", "b", "U", 1, [], []⟩]⟩]
        "a").toOption.map
      (fun em => em.map (fun p =>
        (p.1, p.2.chunks.map (fun c => c.chunk_id), p.2.relations.length)))
      = some [("a", [1, 1], 2), ("b", [1], 2)]) ∧
    ¬ (([1, 1] : List Nat).Nodup) :=
  ⟨by decide, by decide⟩

/-- C7 witness: a well-formed store (distinct chunk ids, duplicate-free
entity names) accumulates duplicate-free chunk lists. -/
theorem entity_matches_chunk_dedup_witness :
    (((("a", (⟨[⟨1, 1, [], 0⟩], [], "Concept"⟩ : MatchData)) :
        String × MatchData)).2.chunks.map (fun c => c.chunk_id)).Nodup :=
  entity_matches_chunk_dedup
    [⟨1, 1, [], 0, "semantic", 0, 0, 0, 0, none, none, false,
      [EntityEntry.str "a"], []⟩]
    "a" [("a", ⟨[⟨1, 1, [], 0⟩], [], "Concept"⟩)]
    (by decide) (by decide) (by rfl)
    ("a", ⟨[⟨1, 1, [], 0⟩], [], "Concept"⟩) (List.Mem.head _)

/-- Well-formed store: slot keys unique, external ids unique in the id
map, and the two maps mutually consistent (each live document's id maps
back to its slot; each mapping points at a live document carrying that
id). This is the state invariant maintained by `add_texts` with distinct
ids and by `delete_by_ids`. -/
def StoreWF (s : FaissVectorStore) : Prop :=
  (s.documents.map Prod.fst).Nodup ∧
  (s.doc_id_to_idx.map Prod.fst).Nodup ∧
  (∀ p ∈ s.documents, alistGet s.doc_id_to_idx p.2.doc_id = some p.1) ∧
  (∀ q ∈ s.doc_id_to_idx, ∃ m, (q.2, m) ∈ s.documents ∧ m.doc_id = q.1)

/-- `alistGet` on a cons cell. -/
theorem alistGet_cons {α β : Type} [DecidableEq α] (a : α) (b : β)
    (m : List (α × β)) (k : α) :
    alistGet ((a, b) :: m) k = if a = k then some b else alistGet m k := by
  rw [alistGet, alistGet, List.find?_cons]
  by_cases h : a = k <;> simp [h]

/-- `alistDel` on a cons cell. -/
theorem alistDel_cons {α β : Type} [DecidableEq α] (a : α) (b : β)
    (m : List (α × β)) (k : α) :
    alistDel ((a, b) :: m) k =
      if a = k then alistDel m k else (a, b) :: alistDel m k := by
  rw [alistDel, List.filter_cons]
  by_cases h : a = k <;> simp [h, alistDel]

/-- Entries of a deletion. -/
theorem mem_alistDel {α β : Type} [DecidableEq α] (m : List (α × β)) (k : α)
    (p : α × β) : p ∈ alistDel m k ↔ p ∈ m ∧ ¬ p.1 = k := by
  rw [alistDel, List.mem_filter]
  simp

/-- Deletion does not change other keys' bindings. -/
theorem alistGet_alistDel_ne {α β : Type} [DecidableEq α] (m : List (α × β))
    (k k' : α) (h : ¬ k' = k) : alistGet (alistDel m k) k' = alistGet m k' := by
  induction m with
  | nil => rfl
  | cons q rest ih =>
    rcases q with ⟨a, b⟩
    rw [alistDel_cons, alistGet_cons]
    by_cases hak : a = k
    · rw [if_pos hak]
      rw [ih]
      rw [if_neg]
      intro hek
      exact h (by rw [← hek, hak])
    · rw [if_neg hak, alistGet_cons, ih]

/-- Two entries of a key-Nodup association list with the same key are the
same entry. -/
theorem nodup_keys_inj {α β : Type} [DecidableEq α] (m : List (α × β))
    (h : (m.map Prod.fst).Nodup) :
    ∀ p1 ∈ m, ∀ p2 ∈ m, p1.1 = p2.1 → p1 = p2 := by
  induction m with
  | nil => intro p1 hp1; exact absurd hp1 (List.not_mem_nil p1)
  | cons q rest ih =>
    rw [List.map_cons, List.nodup_cons] at h
    intro p1 hp1 p2 hp2 hk
    rcases List.mem_cons.mp hp1 with rfl | h1
    · rcases List.mem_cons.mp hp2 with rfl | h2
      · rfl
      · exact absurd (hk ▸ List.mem_map_of_mem Prod.fst h2) h.1
    · rcases List.mem_cons.mp hp2 with rfl | h2
      · exact absurd (hk ▸ List.mem_map_of_mem Prod.fst h1) h.1
      · exact ih h.2 p1 h1 p2 h2 hk

/-- A well-formed store has pairwise-distinct live ids. -/
theorem StoreWF.liveIds_nodup {s : FaissVectorStore} (h : StoreWF s) :
    s.liveIds.Nodup := by
  rcases h with ⟨h1, _, h3, _⟩
  rw [FaissVectorStore.liveIds]
  apply List.Nodup.map_on
  · intro p1 hp1 p2 hp2 hid
    have e1 := h3 p1 hp1
    have e2 := h3 p2 hp2
    rw [hid] at e1
    rw [e2] at e1
    exact nodup_keys_inj s.documents h1 p1 hp1 p2 hp2 (by simpa using e1.symm)
  · exact List.Nodup.of_map Prod.fst h1

/-- A mapped id denotes a live document. -/
theorem StoreWF.mem_liveIds_of_get {s : FaissVectorStore} (h : StoreWF s)
    {docId : String} {idx : Nat}
    (hg : alistGet s.doc_id_to_idx docId = some idx) : docId ∈ s.liveIds := by
  rcases h with ⟨_, _, _, h4⟩
  rcases h4 (docId, idx) (alistGet_mem _ _ _ hg) with ⟨m, hm, hid⟩
  rw [FaissVectorStore.liveIds]
  have := List.mem_map_of_mem (fun p => p.2.doc_id) hm
  simpa [hid] using this

/-- An unmapped id is not live. -/
theorem StoreWF.not_mem_liveIds_of_get_none {s : FaissVectorStore}
    (h : StoreWF s) {docId : String}
    (hg : alistGet s.doc_id_to_idx docId = none) : docId ∉ s.liveIds := by
  rcases h with ⟨_, _, h3, _⟩
  intro hmem
  rcases List.mem_map.mp hmem with ⟨p, hp, hid⟩
  have := h3 p hp
  rw [hid, hg] at this
  exact absurd this (by simp)

/-- Removing one occurrence from a duplicate-free list shortens it by
exactly one. -/
theorem filter_ne_length_of_mem {α : Type} [DecidableEq α] (l : List α)
    (a : α) (hnd : l.Nodup) (hmem : a ∈ l) :
    (l.filter (fun x => ¬ x = a)).length + 1 = l.length := by
  induction l with
  | nil => exact absurd hmem (List.not_mem_nil a)
  | cons b rest ih =>
    rw [List.nodup_cons] at hnd
    rw [List.filter_cons]
    by_cases hb : b = a
    · subst hb
      rw [if_neg (by simp)]
      have : rest.filter (fun x => ¬ x = b) = rest := by
        rw [List.filter_eq_self]
        intro x hx
        simp only [decide_eq_true_eq]
        intro hxb
        exact hnd.1 (hxb ▸ hx)
      rw [this]
      simp
    · rcases List.mem_cons.mp hmem with rfl | hmem2
      · exact absurd rfl hb
      · rw [if_pos (by simpa using hb)]
        rw [List.length_cons, List.length_cons, ← ih hnd.2 hmem2]

/-- Complementary filters split a list's length. -/
theorem length_filter_add_length_filter_not {α : Type} (l : List α)
    (p : α → Bool) :
    (l.filter p).length + (l.filter (fun x => ¬ p x)).length = l.length := by
  induction l with
  | nil => rfl
  | cons b rest ih =>
    rw [List.filter_cons, List.filter_cons]
    by_cases hb : p b <;> simp [hb, ← ih] <;> omega

/-- Filtering commutes with mapping when the predicates agree along the
map. -/
theorem filter_map_comm {α β : Type} (l : List α) (f : α → β) (p : α → Bool)
    (q : β → Bool) (h : ∀ x ∈ l, p x = q (f x)) :
    (l.filter p).map f = (l.map f).filter q := by
  induction l with
  | nil => rfl
  | cons a rest ih =>
    rw [List.filter_cons, List.map_cons, List.filter_cons, ← h a (by simp)]
    by_cases hp : p a <;>
      simp [hp, ih (fun x hx => h x (by simp [hx]))]

/-- Deleting one present id from a well-formed store: well-formedness is
preserved, exactly that id leaves the live list, and the freed slot is
gone from the slot map. -/
theorem deleteOne_spec (s : FaissVectorStore) (docId : String) (idx : Nat)
    (hwf : StoreWF s) (hg : alistGet s.doc_id_to_idx docId = some idx) :
    StoreWF ⟨alistDel s.documents idx, alistDel s.doc_id_to_idx docId,
      s.current_idx, s.ntotal⟩ ∧
    (⟨alistDel s.documents idx, alistDel s.doc_id_to_idx docId,
      s.current_idx, s.ntotal⟩ : FaissVectorStore).liveIds
      = s.liveIds.filter (fun x => ¬ x = docId) ∧
    (∀ p ∈ alistDel s.documents idx, ¬ p.1 = idx) := by
  obtain ⟨h1, h2, h3, h4⟩ := hwf
  rcases h4 (docId, idx) (alistGet_mem _ _ _ hg) with ⟨m0, hm0, hid0⟩
  dsimp only at hm0 hid0
  have hkey_iff : ∀ p ∈ s.documents, (p.1 = idx ↔ p.2.doc_id = docId) := by
    intro p hp
    constructor
    · intro he
      have : p = (idx, m0) :=
        nodup_keys_inj s.documents h1 p hp (idx, m0) hm0 he
      rw [this]
      exact hid0
    · intro he
      have hthis := h3 p hp
      rw [he, hg] at hthis
      have h' : idx = p.1 := by simpa using hthis
      exact h'.symm
  refine ⟨⟨?_, ?_, ?_, ?_⟩, ?_, ?_⟩
  · exact List.Nodup.sublist (List.Sublist.map _ (List.filter_sublist _)) h1
  · exact List.Nodup.sublist (List.Sublist.map _ (List.filter_sublist _)) h2
  · intro p hp
    rcases (mem_alistDel _ _ _).mp hp with ⟨hpm, hpk⟩
    have hne : ¬ p.2.doc_id = docId := fun he => hpk ((hkey_iff p hpm).mpr he)
    rw [alistGet_alistDel_ne _ _ _ hne]
    exact h3 p hpm
  · intro q hq
    rcases (mem_alistDel _ _ _).mp hq with ⟨hqm, hqk⟩
    rcases h4 q hqm with ⟨m, hm, hmid⟩
    refine ⟨m, ?_, hmid⟩
    rw [mem_alistDel]
    refine ⟨hm, ?_⟩
    intro he
    have : (q.2, m) = (idx, m0) :=
      nodup_keys_inj s.documents h1 (q.2, m) hm (idx, m0) hm0 he
    have hmm : m = m0 := congrArg Prod.snd this
    exact hqk (by rw [← hmid, hmm, hid0])
  · show (alistDel s.documents idx).map (fun p => p.2.doc_id)
      = (s.documents.map (fun p => p.2.doc_id)).filter (fun x => ¬ x = docId)
    rw [alistDel]
    apply filter_map_comm
    intro p hp
    by_cases hpi : p.1 = idx
    · simp [hpi, (hkey_iff p hp).mp hpi]
    · have : ¬ p.2.doc_id = docId := fun he => hpi ((hkey_iff p hp).mpr he)
      simp [hpi, this]
  · intro p hp
    exact ((mem_alistDel _ _ _).mp hp).2

/-- The per-id deletion loop: well-formedness is preserved, exactly the
present requested ids leave the live list, the count is the number of
removed entries, and the freed slots are disjoint from the survivors. -/
theorem deleteIdsLoop_spec :
    ∀ (ids : List String) (s : FaissVectorStore), StoreWF s →
      StoreWF (deleteIdsLoop s ids).1 ∧
      (deleteIdsLoop s ids).1.liveIds
        = s.liveIds.filter (fun x => ¬ ids.contains x) ∧
      (deleteIdsLoop s ids).1.liveIds.length ≤ s.liveIds.length ∧
      (deleteIdsLoop s ids).2.2
        = s.liveIds.length - (deleteIdsLoop s ids).1.liveIds.length ∧
      (∀ p ∈ (deleteIdsLoop s ids).1.documents, p ∈ s.documents) ∧
      (∀ p ∈ (deleteIdsLoop s ids).1.documents,
        (deleteIdsLoop s ids).2.1.contains p.1 = false) := by
  intro ids
  induction ids with
  | nil =>
    intro s hwf
    refine ⟨hwf, ?_, le_refl _, by simp [deleteIdsLoop], fun p hp => hp, ?_⟩
    · rw [deleteIdsLoop]
      rw [List.filter_eq_self.mpr]
      intro x _
      simp
    · intro p _
      rfl
  | cons d rest ih =>
    intro s hwf
    rw [deleteIdsLoop]
    cases hg : alistGet s.doc_id_to_idx d with
    | none =>
      rcases ih s hwf with ⟨a, b, c, e, f, g⟩
      have hnl := StoreWF.not_mem_liveIds_of_get_none hwf hg
      refine ⟨a, ?_, c, e, f, g⟩
      rw [b]
      apply List.filter_congr
      intro x hx
      have hxd : ¬ x = d := fun he => hnl (he ▸ hx)
      simp [List.contains_cons, hxd]
    | some idx =>
      rcases deleteOne_spec s d idx hwf hg with ⟨hwf1, hlive1, hkeys1⟩
      rcases ih ⟨alistDel s.documents idx, alistDel s.doc_id_to_idx d,
          s.current_idx, s.ntotal⟩ hwf1 with ⟨a, b, c, e, f, g⟩
      rcases hres : deleteIdsLoop ⟨alistDel s.documents idx,
          alistDel s.doc_id_to_idx d, s.current_idx, s.ntotal⟩ rest with
        ⟨s2, removed, cnt⟩
      rw [hres] at a b c e f g
      simp only [hres]
      have hdmem : d ∈ s.liveIds := StoreWF.mem_liveIds_of_get hwf hg
      have hlen1 : (s.liveIds.filter (fun x => ¬ x = d)).length + 1
          = s.liveIds.length :=
        filter_ne_length_of_mem _ d hwf.liveIds_nodup hdmem
      rw [hlive1] at b c e
      refine ⟨a, ?_, ?_, ?_, ?_, ?_⟩
      · rw [b, List.filter_filter]
        apply List.filter_congr
        intro x hx
        by_cases hxd : x = d <;> simp [List.contains_cons, hxd]
      · dsimp only at b c e ⊢
        omega
      · dsimp only at b c e ⊢
        omega
      · intro p hp
        rcases (mem_alistDel _ _ _).mp (f p hp) with ⟨hpm, _⟩
        exact hpm
      · intro p hp
        have hg1 := g p hp
        have hg2 : ¬ p.1 = idx := ((mem_alistDel _ _ _).mp (f p hp)).2
        rw [Bool.eq_false_iff]
        intro hcont
        have hmem := List.mem_of_elem_eq_true hcont
        rcases List.mem_cons.mp hmem with he | hm
        · exact hg2 he
        · rw [Bool.eq_false_iff] at hg1
          exact hg1 (List.elem_eq_true_of_mem hm)

/-- The row loop of `add_texts` appends the given ids to the live list
when every existing slot is below the write cursor. -/
theorem addRowsAux_liveIds (startIdx : Nat) :
    ∀ (rows : List (PyStr × (List (String × String) × String)))
      (s : FaissVectorStore) (added : List String) (i : Nat),
      (∀ p ∈ s.documents, p.1 < startIdx + i) →
      (addRowsAux startIdx s added i rows).1.liveIds
        = s.liveIds ++ rows.map (fun r => r.2.2) := by
  intro rows
  induction rows with
  | nil => intro s added i _; simp [addRowsAux]
  | cons row rest ih =>
    rcases row with ⟨text, meta, docId⟩
    intro s added i hb
    rw [addRowsAux]
    have hfind : s.documents.find? (fun p => p.1 = startIdx + i) = none := by
      rw [List.find?_eq_none]
      intro p hp
      simp only [decide_eq_true_eq]
      exact Nat.ne_of_lt (hb p hp)
    have hset : alistSet s.documents (startIdx + i)
        ⟨docId, text, meta⟩ = s.documents ++ [(startIdx + i, ⟨docId, text, meta⟩)] :=
      alistSet_absent _ _ _ (by rw [hfind]; rfl)
    rw [ih _ _ _ (by
      intro p hp
      rw [hset] at hp
      rcases List.mem_append.mp hp with hm | hm
      · exact Nat.lt_trans (hb p hm) (by omega)
      · rw [List.mem_singleton] at hm
        rw [hm]
        omega)]
    simp [FaissVectorStore.liveIds, hset]

/-- The third components of the `zip` rows are the given ids when the
lengths agree. -/
theorem zip_thirds {γ : Type} :
    ∀ (texts : List PyStr) (metas : List γ) (ids : List String),
      metas.length = texts.length → ids.length = texts.length →
      ((texts.zip (metas.zip ids)).map (fun r => r.2.2)) = ids := by
  intro texts
  induction texts with
  | nil =>
    intro metas ids _ h2
    rw [List.length_nil] at h2
    rw [List.eq_nil_of_length_eq_zero h2]
    rfl
  | cons t ts ih =>
    intro metas ids h1 h2
    cases metas with
    | nil => simp at h1
    | cons m ms =>
      cases ids with
      | nil => simp at h2
      | cons d ds =>
        simp only [List.zip_cons_cons, List.map_cons]
        rw [ih ms ds (by simpa using h1) (by simpa using h2)]

/-- Rebuilding after a deletion re-adds the surviving documents with their
original external ids, in order. -/
theorem rebuildIndex_liveIds (s : FaissVectorStore) (removed : List Nat)
    (hkeys : ∀ p ∈ s.documents, removed.contains p.1 = false) :
    (s.rebuildIndex removed).liveIds = s.liveIds := by
  rw [FaissVectorStore.rebuildIndex]
  have hfil : s.documents.filter (fun p => ¬ removed.contains p.1)
      = s.documents := by
    rw [List.filter_eq_self]
    intro p hp
    have h := hkeys p hp
    simp only [decide_eq_true_eq]
    rw [h]
    simp
  rw [hfil]
  cases hdocs : s.documents with
  | nil =>
    simp [hdocs, FaissVectorStore.liveIds]
  | cons p0 prest =>
    rw [if_neg (by simp)]
    rw [FaissVectorStore.addTexts]
    rw [if_neg (by simp)]
    rw [addRowsAux_liveIds _ _ _ _ _ (by intro p hp; simp at hp)]
    rw [zip_thirds _ _ _ (by simp) (by simp)]
    simp [FaissVectorStore.liveIds, hdocs, Function.comp]

/-- Every document returned by the hit-resolution loop is live. -/
theorem resolveHits_liveIds (s : FaissVectorStore) (hits : List Int) :
    ∀ doc ∈ s.resolveHits hits, doc.doc_id ∈ s.liveIds := by
  rw [FaissVectorStore.resolveHits]
  suffices h : ∀ (hs : List Int) (acc : List DocumentMetadata),
      ∀ doc ∈ hs.foldl (fun results idx =>
        if idx = -1 then results
        else
          match alistGet s.documents idx.toNat with
          | some doc => results ++ [doc]
          | none => results) acc,
      doc ∈ acc ∨ doc.doc_id ∈ s.liveIds by
    intro doc hdoc
    rcases h hits [] doc hdoc with hm | hm
    · exact absurd hm (List.not_mem_nil doc)
    · exact hm
  intro hs
  induction hs with
  | nil => intro acc doc hdoc; exact Or.inl hdoc
  | cons idx rest ih =>
    intro acc doc hdoc
    rw [List.foldl_cons] at hdoc
    by_cases hneg : idx = -1
    · rw [if_pos hneg] at hdoc
      exact ih acc doc hdoc
    · rw [if_neg hneg] at hdoc
      cases hget : alistGet s.documents idx.toNat with
      | none =>
        rw [hget] at hdoc
        exact ih acc doc hdoc
      | some d =>
        rw [hget] at hdoc
        rcases ih (acc ++ [d]) doc hdoc with hm | hm
        · rcases List.mem_append.mp hm with hm2 | hm2
          · exact Or.inl hm2
          · rw [List.mem_singleton] at hm2
            subst hm2
            exact Or.inr (List.mem_map_of_mem (fun p => p.2.doc_id)
              (alistGet_mem _ _ _ hget))
        · exact Or.inr hm

/-- C5 (amended): on a well-formed store (pairwise-distinct live external
ids, consistent maps — the invariant the pipeline's unique `chunk_<n>` ids
maintain), `delete_by_ids` removes exactly the requested, present ids in
order, returns the number actually removed (absent ids are ignored without
error), and no subsequent hit resolution can return a deleted id. Without
well-formedness the claim fails: two live slots sharing an external id
(reachable via `add_texts` with a repeated caller id) leave the id
searchable after it is reported deleted (see the counterexample). -/
theorem deleteByIds_spec (s : FaissVectorStore) (ids : List String)
    (hwf : StoreWF s) :
    (s.deleteByIds ids).1.liveIds
      = s.liveIds.filter (fun x => ¬ ids.contains x) ∧
    (s.deleteByIds ids).2
      = (s.liveIds.filter (fun x => ids.contains x)).length ∧
    ∀ hits doc, doc ∈ (s.deleteByIds ids).1.resolveHits hits →
      ids.contains doc.doc_id = false := by
  rcases hsplit : deleteIdsLoop s ids with ⟨s1, removed, cnt⟩
  rcases deleteIdsLoop_spec ids s hwf with ⟨hwf1, hlive, hlen, hcnt, hsub, hkeys⟩
  rw [hsplit] at hwf1 hlive hlen hcnt hsub hkeys
  dsimp only at hwf1 hlive hlen hcnt hsub hkeys
  have hcomp := length_filter_add_length_filter_not s.liveIds
    (fun x => ids.contains x)
  have hres : s.deleteByIds ids
      = if 0 < cnt then (s1.rebuildIndex removed, cnt) else (s1, cnt) := by
    rw [FaissVectorStore.deleteByIds, hsplit]
  have hliveFinal : (s.deleteByIds ids).1.liveIds = s1.liveIds := by
    rw [hres]
    by_cases hc : 0 < cnt
    · rw [if_pos hc]
      exact rebuildIndex_liveIds s1 removed hkeys
    · rw [if_neg hc]
  have hcntFinal : (s.deleteByIds ids).2 = cnt := by
    rw [hres]
    by_cases hc : 0 < cnt
    · rw [if_pos hc]
    · rw [if_neg hc]
  refine ⟨by rw [hliveFinal, hlive], ?_, ?_⟩
  · rw [hcntFinal, hcnt]
    rw [hlive]
    omega
  · intro hits doc hdoc
    have hid := resolveHits_liveIds _ hits doc hdoc
    rw [hliveFinal, hlive] at hid
    have := List.of_mem_filter hid
    simpa using this

/-- C5 counterexample: two live slots can share the external id "x"
(reachable through `add_texts` with a repeated caller-supplied id, which
only overwrites the id→slot map). `delete_by_ids(["x"])` then reports one
deletion, yet the id "x" is still live and a subsequent search resolving
slot 0 still returns an entry whose id was deleted. -/
theorem deleteByIds_cex :
    ((((FaissVectorStore.empty.addTexts [['a']] (some [[]]) (some ["x"])).1.addTexts
        [['b']] (some [[]]) (some ["x"])).1.deleteByIds ["x"]).2 = 1) ∧
    (((((FaissVectorStore.empty.addTexts [['a']] (some [[]]) (some ["x"])).1.addTexts
        [['b']] (some [[]]) (some ["x"])).1.deleteByIds ["x"]).1.resolveHits
        [0]).map (fun d => d.doc_id) = ["x"]) ∧
    ("x" ∈ ((FaissVectorStore.empty.addTexts [['a']] (some [[]]) (some ["x"])).1.addTexts
        [['b']] (some [[]]) (some ["x"])).1.liveIds) := by
  refine ⟨by decide, by decide, by decide⟩

/-- C5 witness: a well-formed two-document store, deleting one present and
one absent id. -/
theorem deleteByIds_spec_witness :
    StoreWF ⟨[(0, ⟨"x", ['a'], []⟩), (1, ⟨"y", ['b'], []⟩)],
      [("x", 0), ("y", 1)], 2, 2⟩ ∧
    (((⟨[(0, ⟨"x", ['a'], []⟩), (1, ⟨"y", ['b'], []⟩)],
        [("x", 0), ("y", 1)], 2, 2⟩ : FaissVectorStore).deleteByIds
        ["x", "z"]).1.liveIds
      = (⟨[(0, ⟨"x", ['a'], []⟩), (1, ⟨"y", ['b'], []⟩)],
          [("x", 0), ("y", 1)], 2, 2⟩ : FaissVectorStore).liveIds.filter
          (fun x => ¬ (["x", "z"].contains x)) ∧
    ((⟨[(0, ⟨"x", ['a'], []⟩), (1, ⟨"y", ['b'], []⟩)],
        [("x", 0), ("y", 1)], 2, 2⟩ : FaissVectorStore).deleteByIds
        ["x", "z"]).2
      = ((⟨[(0, ⟨"x", ['a'], []⟩), (1, ⟨"y", ['b'], []⟩)],
          [("x", 0), ("y", 1)], 2, 2⟩ : FaissVectorStore).liveIds.filter
          (fun x => ["x", "z"].contains x)).length ∧
    ∀ hits doc, doc ∈ ((⟨[(0, ⟨"x", ['a'], []⟩), (1, ⟨"y", ['b'], []⟩)],
        [("x", 0), ("y", 1)], 2, 2⟩ : FaissVectorStore).deleteByIds
        ["x", "z"]).1.resolveHits hits →
      (["x", "z"].contains doc.doc_id) = false) := by
  have hwf : StoreWF ⟨[(0, ⟨"x", ['a'], []⟩), (1, ⟨"y", ['b'], []⟩)],
      [("x", 0), ("y", 1)], 2, 2⟩ := by
    refine ⟨by decide, by decide, by decide, ?_⟩
    intro q hq
    rcases List.mem_cons.mp hq with rfl | hq2
    · exact ⟨⟨"x", ['a'], []⟩, by decide, rfl⟩
    · rcases List.mem_cons.mp hq2 with rfl | hq3
      · exact ⟨⟨"y", ['b'], []⟩, by decide, rfl⟩
      · exact absurd hq3 (List.not_mem_nil q)
  exact ⟨hwf, deleteByIds_spec _ ["x", "z"] hwf⟩

/-- A failed embedding round trip leaves the store and the chunk rows
untouched (`add_texts` aborts before insertion; the step swallows the
exception). -/
theorem vectorizeChunksStep_unavailable (store : Option FaissVectorStore)
    (chunks : List DocumentChunk) (modelName : String) :
    vectorizeChunksStep store .unavailable chunks modelName = (store, chunks) := by
  cases store <;> rfl

/-- C1 counterexample: vector store enabled, chunking succeeds with one
chunk, every embedding call fails — the run ends `COMPLETED`, but
`vector_stored` is `True` (the worker sets it unconditionally after the
swallowed failure), not `false` as the claim states. -/
theorem pipeline_vector_stored_cex :
    ((processDocumentWorker
        ⟨1, 1, ['a', 'b', 'c'], some .fixed, some 100, some 20, .pending, "",
          0, 0, 0, 0, 0, false, false⟩
        ⟨1, .semantic, 500, 100, true, false, false, "nomic-embed-text", 0, 0⟩
        (some FaissVectorStore.empty) .unavailable none 10).document.status
      = .completed) ∧
    ((processDocumentWorker
        ⟨1, 1, ['a', 'b', 'c'], some .fixed, some 100, some 20, .pending, "",
          0, 0, 0, 0, 0, false, false⟩
        ⟨1, .semantic, 500, 100, true, false, false, "nomic-embed-text", 0, 0⟩
        (some FaissVectorStore.empty) .unavailable none 10).document.vector_stored
      = true) := by
  refine ⟨by decide, by decide⟩

/-- C1 (amended): a chunking step producing zero chunks ends the document
`FAILED` with a non-empty error message; a run whose chunking succeeds but
whose embedding calls all fail still ends `COMPLETED` — with
`vector_stored = True` (not `false`): the worker sets the flag right after
the vectorization step, which swallows the failure. -/
theorem pipeline_failure_modes (doc : Document) (kb : KnowledgeBase)
    (store : Option FaissVectorStore)
    (extractor : Option (Nat → Option ExtractResult)) (fid : Nat) :
    (chunkDocumentStep { doc with status := .processing } kb fid = .ok [] →
      ∀ embed,
        (processDocumentWorker doc kb store embed extractor fid).document.status
          = .failed ∧
        ¬ (processDocumentWorker doc kb store embed extractor
            fid).document.error_message = "") ∧
    (∀ chunks,
      chunkDocumentStep { doc with status := .processing } kb fid = .ok chunks →
      ¬ chunks.isEmpty = true →
      kb.enable_vector_store = true →
      (processDocumentWorker doc kb store .unavailable extractor
          fid).document.status = .completed ∧
      (processDocumentWorker doc kb store .unavailable extractor
          fid).document.vector_stored = true) := by
  constructor
  · intro h embed
    rw [processDocumentWorker, h]
    simp
  · intro chunks h hne hvec
    have hbe : chunks.isEmpty = false := by
      rwa [Bool.not_eq_true] at hne
    rw [processDocumentWorker, h]
    simp only [hbe, Bool.false_eq_true, if_false, hvec, if_true,
      vectorizeChunksStep_unavailable]
    rcases hext : extractEntitiesRelationsStep extractor chunks with ⟨cs, ec, rc⟩
    by_cases hner : kb.enable_ner = true
    · simp only [hner, if_true, hext]
      split <;> simp
    · simp only [hner, Bool.false_eq_true, if_false]
      split <;> simp

/-- C1 witness: a run chunking to zero chunks (empty content) fails with a
message; a run with one chunk and failing embeddings completes with the
flag set. -/
theorem pipeline_failure_modes_witness :
    ((processDocumentWorker
        ⟨1, 1, [], some .fixed, some 100, some 20, .pending, "",
          0, 0, 0, 0, 0, false, false⟩
        ⟨1, .semantic, 500, 100, true, false, false, "nomic-embed-text", 0, 0⟩
        (some FaissVectorStore.empty) .ok none 10).document.status = .failed ∧
      ¬ (processDocumentWorker
        ⟨1, 1, [], some .fixed, some 100, some 20, .pending, "",
          0, 0, 0, 0, 0, false, false⟩
        ⟨1, .semantic, 500, 100, true, false, false, "nomic-embed-text", 0, 0⟩
        (some FaissVectorStore.empty) .ok none 10).document.error_message = "") ∧
    ((processDocumentWorker
        ⟨1, 1, ['a', 'b', 'c'], some .fixed, some 100, some 20, .pending, "",
          0, 0, 0, 0, 0, false, false⟩
        ⟨1, .semantic, 500, 100, true, false, false, "nomic-embed-text", 0, 0⟩
        (some FaissVectorStore.empty) .unavailable none 10).document.status
        = .completed ∧
      (processDocumentWorker
        ⟨1, 1, ['a', 'b', 'c'], some .fixed, some 100, some 20, .pending, "",
          0, 0, 0, 0, 0, false, false⟩
        ⟨1, .semantic, 500, 100, true, false, false, "nomic-embed-text", 0, 0⟩
        (some FaissVectorStore.empty) .unavailable none
        10).document.vector_stored = true) :=
  ⟨(pipeline_failure_modes
      ⟨1, 1, [], some .fixed, some 100, some 20, .pending, "",
        0, 0, 0, 0, 0, false, false⟩
      ⟨1, .semantic, 500, 100, true, false, false, "nomic-embed-text", 0, 0⟩
      (some FaissVectorStore.empty) none 10).1 (by rfl) .ok,
   (pipeline_failure_modes
      ⟨1, 1, ['a', 'b', 'c'], some .fixed, some 100, some 20, .pending, "",
        0, 0, 0, 0, 0, false, false⟩
      ⟨1, .semantic, 500, 100, true, false, false, "nomic-embed-text", 0, 0⟩
      (some FaissVectorStore.empty) none 10).2
    [⟨10, 1, ['a', 'b', 'c'], 0, "fixed", 3, 1, 0, 3, none, none, false, [], []⟩]
    (by rfl) (by decide) rfl⟩

end Rag
